import Mathlib

/-!
# cpptask: range counting over a step-bounded sequence file

Shallow embedding of `Source/Main.cpp`.

* A file is the list of its `size_t` records, in index order. A stream opened on it is the
  record list together with the cursor (measured in records: every seek of the program is a
  multiple of `sizeof(size_t)`).
* `size_t` arithmetic that can leave the range is reduced modulo `2^64` (`wrap`, `usub`).
  The differences `min - value` and `max - value` are taken under `value <= min`, `value < max`
  and stay plain. On a file with at least one record every seek follows a passed
  `pos <= length - 1` check, so its byte offset `sizeof(size_t) * pos` does not overflow; on the
  empty file every read fails wherever the cursor stands.
* The two `while` loops of `more_effective` need not terminate (they do not on the empty file),
  so they take a fuel argument: `none` means the fuel ran out before the loop finished.
* `fopen` failing is the file argument `none`.
* `lower_search` and `upper_search` are the two halves of `more_effective` (lower-bound and
  upper-bound resolution); `more_effective_eq_searches` shows that `more_effective` is the one
  followed by the other.
* `more_effective_traced` is `more_effective` paired with the record indices of its `fread`
  calls; `more_effective_traced_fst` shows that dropping the log gives `more_effective`.
-/

namespace CppTask

/-! ## Machine arithmetic -/

/-- Number of values of a `size_t` (64 bit). -/
def SIZE : Nat := 18446744073709551616

/-- Reduction of a natural number into the range of `size_t`. -/
def wrap (n : Nat) : Nat := n % 18446744073709551616

/-- Subtraction of two `size_t` values, wrapping around below zero. -/
def usub (x y : Nat) : Nat := (x + 18446744073709551616 - y % 18446744073709551616) % 18446744073709551616

/-- The statement `value += random()`: the `int` result is converted to `size_t` and added
modulo `2^64`. -/
def add_int (value : Nat) (s : Int) : Nat := (((value : Int) + s) % 18446744073709551616).toNat

/-! ## Streams -/

/-- An open stream: the records of the file and the cursor, in records. -/
structure FILE where
  data : List Nat
  cursor : Nat
deriving DecidableEq, Repr

/-- Models `fseek(pFile, sizeof(size_t) * pos, SEEK_SET)`. -/
def fseek_set (f : FILE) (pos : Nat) : FILE := { f with cursor := pos }

/-- Models `fseek(pFile, sizeof(size_t) * off, SEEK_CUR)`. -/
def fseek_cur (f : FILE) (off : Nat) : FILE := { f with cursor := f.cursor + off }

/-- Models `fread(&value, sizeof(size_t), 1, pFile)`: inside the file the record under the cursor is
stored into `value` and the cursor moves one record on; at or past the end nothing is read,
`value` keeps its content and the cursor stays. -/
def fread (f : FILE) (value : Nat) : Nat × FILE :=
  match f.data.get? f.cursor with
  | some v => (v, { f with cursor := f.cursor + 1 })
  | none => (value, f)

/-! ## `write_numbers` -/

/-- The `for (size_t i = 1; i < N; ++i)` loop of `write_numbers`; the first argument is the number
of iterations still to run. Returns the records written and the generator state left. -/
def write_loop {G : Type} (random : G → Int × G) : Nat → Nat → G → List Nat × G
  | 0, _, g => ([], g)
  | k + 1, value, g =>
    let r := random g
    let value := add_int value r.1
    let rest := write_loop random k value r.2
    (value :: rest.1, rest.2)

/-- Models `write_numbers(file_name, N, random)` on a file that can be opened: the records written,
and the state of the generator afterwards. A call of `random` is a step `G → Int × G`. -/
def write_numbers {G : Type} (N : Nat) (random : G → Int × G) (g : G) : List Nat × G :=
  let value := 0
  let rest := write_loop random (N - 1) value g
  (value :: rest.1, rest.2)

/-- The generator state after `k` calls of `random`, starting from `g`. -/
def state_after {G : Type} (random : G → Int × G) (g : G) : Nat → G
  | 0 => g
  | k + 1 => state_after random (random g).2 k

/-- The result of call number `k + 1` of `random`, starting from `g`. -/
def step_result {G : Type} (random : G → Int × G) (g : G) (k : Nat) : Int :=
  (random (state_after random g k)).1

/-- A generator that replays a list of step results (and yields 1 when the list is used up). -/
def replay (l : List Int) : Int × List Int := (l.headD 1, l.tail)

/-! ## `more_effective` -/

/-- How a `while` loop of `more_effective` ends: the function returns from inside the loop, or
the loop condition fails and control goes on with the position, the value and the stream. -/
inductive Outcome where
  | returned (n : Nat)
  | exited (pos : Nat) (value : Nat) (f : FILE)
deriving DecidableEq, Repr

/-- The loop `while (value <= min)` (lower bound). -/
def lower_loop (min length : Nat) : Nat → Nat → Nat → FILE → Option Outcome
  | 0, _, _, _ => none
  | fuel + 1, pos_min, value, f =>
    if value ≤ min then
      let tmp := if min - value > 2 then (min - value) >>> 1 else 0
      let pos_min := if min - value > 2 then wrap (pos_min + tmp) else pos_min
      let pos_min := wrap (pos_min + 1)
      if pos_min > usub length 1 then
        some (Outcome.returned 0)
      else
        let f := fseek_cur f tmp
        let r := fread f value
        lower_loop min length fuel pos_min r.1 r.2
    else
      some (Outcome.exited pos_min value f)

/-- The loop `while (value < max)` (upper bound). -/
def upper_loop (max length pos_min : Nat) : Nat → Nat → Nat → FILE → Option Outcome
  | 0, _, _, _ => none
  | fuel + 1, pos_max, value, f =>
    if value < max then
      let tmp := if max - value > 2 then (max - value) >>> 1 else 0
      let pos_max := if max - value > 2 then wrap (pos_max + tmp) else pos_max
      let pos_max := wrap (pos_max + 1)
      if pos_max > usub length 1 then
        some (Outcome.returned (usub length pos_min))
      else
        let f := fseek_cur f tmp
        let r := fread f value
        upper_loop max length pos_min fuel pos_max r.1 r.2
    else
      some (Outcome.exited pos_max value f)

/-- Models `more_effective(file_name, a, b)`. `file` is `none` when the file cannot be opened,
otherwise its records. Each loop may run `fuel` times; the result is `none` when a loop did not
finish within that. -/
def more_effective (fuel : Nat) (file : Option (List Nat)) (a b : Nat) : Option Nat :=
  if a = b then some 0
  else
    match file with
    | none => some 0
    | some data =>
      let min := Nat.min a b
      let max := Nat.max a b
      let length := data.length
      let pos_min := min >>> 1
      if pos_min > usub length 1 then some 0
      else
        let f := fseek_set ⟨data, length⟩ pos_min
        let r := fread f 0
        match lower_loop min length fuel pos_min r.1 r.2 with
        | none => none
        | some (Outcome.returned n) => some n
        | some (Outcome.exited pos_min value f) =>
          let pos_max := max >>> 1
          if pos_max > usub length 1 then some (usub length pos_min)
          else
            let f := fseek_set f pos_max
            let r := fread f value
            match upper_loop max length pos_min fuel pos_max r.1 r.2 with
            | none => none
            | some (Outcome.returned n) => some n
            | some (Outcome.exited pos_max _ _) => some (usub pos_max pos_min)

/-- The lower-bound resolution of `more_effective`, from the seed `min >> 1` to the end of the loop
`while (value <= min)`, on the stream as `fseek(pFile, 0, SEEK_END)` left it. -/
def lower_search (min : Nat) (data : List Nat) (fuel : Nat) : Option Outcome :=
  let length := data.length
  let pos_min := min >>> 1
  if pos_min > usub length 1 then some (Outcome.returned 0)
  else
    let f := fseek_set ⟨data, length⟩ pos_min
    let r := fread f 0
    lower_loop min length fuel pos_min r.1 r.2

/-- The upper-bound resolution of `more_effective`, from the seed `max >> 1` to the end of the loop
`while (value < max)`, started with the position, the value and the stream the lower-bound
resolution left. -/
def upper_search (max length pos_min fuel value : Nat) (f : FILE) : Option Outcome :=
  let pos_max := max >>> 1
  if pos_max > usub length 1 then some (Outcome.returned (usub length pos_min))
  else
    let f := fseek_set f pos_max
    let r := fread f value
    upper_loop max length pos_min fuel pos_max r.1 r.2

/-- The loop state is consistent: the stream is the file `P`, its cursor stands one record after
the position counter, the counter is inside the file and `value` is the record at the counter. -/
def Consistent (P : List Nat) (pos value : Nat) (f : FILE) : Prop :=
  f = ⟨P, pos + 1⟩ ∧ pos < P.length ∧ value = P.getD pos 0

/-- A number of loop rounds that is enough for a gap `d` between the bound and the value. -/
def read_bound (d : Nat) : Nat := if d ≤ 2 then d + 2 else Nat.log 2 (d + 1) + 3

/-! ## `more_effective` with a log of the reads

The same function again, paired with the list of the record indices at which `fread` is called
(the cursor at the call, also when the read fails), in the order of the calls. -/

/-- The loop `while (value <= min)` with the indices of its reads. -/
def lower_loop_traced (min length : Nat) : Nat → Nat → Nat → FILE → Option Outcome × List Nat
  | 0, _, _, _ => (none, [])
  | fuel + 1, pos_min, value, f =>
    if value ≤ min then
      let tmp := if min - value > 2 then (min - value) >>> 1 else 0
      let pos_min := if min - value > 2 then wrap (pos_min + tmp) else pos_min
      let pos_min := wrap (pos_min + 1)
      if pos_min > usub length 1 then
        (some (Outcome.returned 0), [])
      else
        let f := fseek_cur f tmp
        let r := fread f value
        let rest := lower_loop_traced min length fuel pos_min r.1 r.2
        (rest.1, f.cursor :: rest.2)
    else
      (some (Outcome.exited pos_min value f), [])

/-- The loop `while (value < max)` with the indices of its reads. -/
def upper_loop_traced (max length pos_min : Nat) :
    Nat → Nat → Nat → FILE → Option Outcome × List Nat
  | 0, _, _, _ => (none, [])
  | fuel + 1, pos_max, value, f =>
    if value < max then
      let tmp := if max - value > 2 then (max - value) >>> 1 else 0
      let pos_max := if max - value > 2 then wrap (pos_max + tmp) else pos_max
      let pos_max := wrap (pos_max + 1)
      if pos_max > usub length 1 then
        (some (Outcome.returned (usub length pos_min)), [])
      else
        let f := fseek_cur f tmp
        let r := fread f value
        let rest := upper_loop_traced max length pos_min fuel pos_max r.1 r.2
        (rest.1, f.cursor :: rest.2)
    else
      (some (Outcome.exited pos_max value f), [])

/-- Models `more_effective(file_name, a, b)` with the indices of all its reads: the result, and
the record indices at which `fread` was called, in order. -/
def more_effective_traced (fuel : Nat) (file : Option (List Nat)) (a b : Nat) :
    Option Nat × List Nat :=
  if a = b then (some 0, [])
  else
    match file with
    | none => (some 0, [])
    | some data =>
      let min := Nat.min a b
      let max := Nat.max a b
      let length := data.length
      let pos_min := min >>> 1
      if pos_min > usub length 1 then (some 0, [])
      else
        let f := fseek_set ⟨data, length⟩ pos_min
        let r := fread f 0
        let low := lower_loop_traced min length fuel pos_min r.1 r.2
        match low.1 with
        | none => (none, f.cursor :: low.2)
        | some (Outcome.returned n) => (some n, f.cursor :: low.2)
        | some (Outcome.exited pos_min value f2) =>
          let pos_max := max >>> 1
          if pos_max > usub length 1 then (some (usub length pos_min), f.cursor :: low.2)
          else
            let f3 := fseek_set f2 pos_max
            let r := fread f3 value
            let up := upper_loop_traced max length pos_min fuel pos_max r.1 r.2
            match up.1 with
            | none => (none, f.cursor :: low.2 ++ f3.cursor :: up.2)
            | some (Outcome.returned n) => (some n, f.cursor :: low.2 ++ f3.cursor :: up.2)
            | some (Outcome.exited pos_max _ _) =>
              (some (usub pos_max pos_min), f.cursor :: low.2 ++ f3.cursor :: up.2)

/-! ## `simple` -/

/-- The `for (size_t i = 0; i < size; ++i)` loop of `simple`; the first argument is the number of
iterations still to run (`n ≤ i < size`, so the counter cannot overflow). -/
def simple_loop (min max : Nat) : Nat → Nat → Nat → FILE → Nat
  | 0, n, _, _ => n
  | k + 1, n, value, f =>
    let r := fread f value
    let n := if r.1 > min ∧ r.1 < max then n + 1 else n
    simple_loop min max k n r.1 r.2

/-- Models `simple(file_name, a, b)`; `file` is `none` when the file cannot be opened. -/
def simple (file : Option (List Nat)) (a b : Nat) : Nat :=
  match file with
  | none => 0
  | some data =>
    let min := Nat.min a b
    let max := Nat.max a b
    let size := data.length
    let f := fseek_set ⟨data, size⟩ 0
    simple_loop min max size 0 0 f

/-! ## The test sequence and the data-model invariant -/

/-- The sequence written by `test()`. -/
def test_sequence : List Nat := [0, 1, 2, 4, 5, 7, 8, 9, 10, 12]

/-- The bound pairs tried by `test()`. -/
def test_pairs : List (Nat × Nat) :=
  [(0, 3), (1, 5), (6, 2), (9, 12), (3, 20), (13, 23), (0, 13), (1, 2), (3, 7), (8, 10),
   (15, 19), (1, 9), (2, 14), (11, 13), (101, 230), (5, 5)]

/-- Step-bounded growth: the file is not empty, record 0 is 0 and consecutive records differ by
1 or 2. -/
def StepBounded (P : List Nat) : Prop :=
  0 < P.length ∧ P.getD 0 0 = 0 ∧
    ∀ i < P.length - 1, P.getD (i + 1) 0 = P.getD i 0 + 1 ∨ P.getD (i + 1) 0 = P.getD i 0 + 2

instance (P : List Nat) : Decidable (StepBounded P) := by
  unfold StepBounded; infer_instance

/-- The number of records `v` with `lo < v < hi`. -/
def count_between (P : List Nat) (lo hi : Nat) : Nat :=
  P.countP (fun v => decide (lo < v ∧ v < hi))

/-- The number of records `v` with `v ≤ m`. -/
def count_le (P : List Nat) (m : Nat) : Nat :=
  P.countP (fun v => decide (v ≤ m))

/-- The number of records `v` with `v < m`. -/
def count_lt (P : List Nat) (m : Nat) : Nat :=
  P.countP (fun v => decide (v < m))

/-! ## Machine arithmetic inside the range -/

theorem wrap_of_lt {n : Nat} (h : n < SIZE) : wrap n = n := by
  unfold SIZE at h
  unfold wrap
  omega

theorem usub_of_le {x y : Nat} (hy : y ≤ x) (hx : x < SIZE) : usub x y = x - y := by
  unfold SIZE at hx
  unfold usub
  omega

theorem shr_one (n : Nat) : n >>> 1 = n / 2 := by
  simp [Nat.shiftRight_eq_div_pow]

/-! ## Reading inside the file -/

theorem fread_inside (P : List Nat) (c v : Nat) (h : c < P.length) :
    fread ⟨P, c⟩ v = (P.getD c 0, ⟨P, c + 1⟩) := by
  simp [fread, List.getD_eq_getElem?_getD, List.getElem?_eq_getElem h]

theorem fread_outside (P : List Nat) (c v : Nat) (h : P.length ≤ c) :
    fread ⟨P, c⟩ v = (v, ⟨P, c⟩) := by
  simp [fread, List.getElem?_eq_none h]

/-! ## Consequences of step-bounded growth -/

theorem StepBounded.step {P : List Nat} (h : StepBounded P) {i : Nat} (hi : i + 1 < P.length) :
    P.getD (i + 1) 0 = P.getD i 0 + 1 ∨ P.getD (i + 1) 0 = P.getD i 0 + 2 :=
  h.2.2 i (by omega)

/-- Going `k` records on raises the value by at least `k` and at most `2 * k`. -/
theorem StepBounded.advance {P : List Nat} (h : StepBounded P) (i k : Nat)
    (hik : i + k < P.length) :
    P.getD i 0 + k ≤ P.getD (i + k) 0 ∧ P.getD (i + k) 0 ≤ P.getD i 0 + 2 * k := by
  induction k with
  | zero => simp
  | succ k ih =>
    have hk := ih (by omega)
    have hs := h.step (i := i + k) (by omega)
    have e : i + (k + 1) = i + k + 1 := rfl
    rw [e]
    omega

theorem StepBounded.index_bounds {P : List Nat} (h : StepBounded P) (i : Nat)
    (hi : i < P.length) : i ≤ P.getD i 0 ∧ P.getD i 0 ≤ 2 * i := by
  have := h.advance 0 i (by omega)
  have h0 := h.2.1
  simp only [Nat.zero_add] at this
  omega

theorem StepBounded.mono {P : List Nat} (h : StepBounded P) {i j : Nat} (hij : i ≤ j)
    (hj : j < P.length) : P.getD i 0 ≤ P.getD j 0 := by
  obtain ⟨k, rfl⟩ := Nat.exists_eq_add_of_le hij
  have := h.advance i k hj
  omega

theorem StepBounded.strict_mono {P : List Nat} (h : StepBounded P) {i j : Nat} (hij : i < j)
    (hj : j < P.length) : P.getD i 0 < P.getD j 0 := by
  obtain ⟨k, rfl⟩ := Nat.exists_eq_add_of_le (Nat.le_of_lt hij)
  have := h.advance i k hj
  omega

/-! ## Counting records by index -/

theorem countP_take_of_all (p : Nat → Bool) (P : List Nat) (k : Nat) (hk : k ≤ P.length)
    (h : ∀ i < k, p (P.getD i 0) = true) : (P.take k).countP p = k := by
  have hl : (P.take k).length = k := by simp [List.length_take, hk]
  have hc : (P.take k).countP p = (P.take k).length := by
    apply List.countP_eq_length.2
    intro a ha
    obtain ⟨i, hi, rfl⟩ := List.mem_take_iff_getElem.1 ha
    have hik : i < k := by
      have := Nat.min_le_left k P.length
      omega
    have := h i hik
    rwa [List.getD_eq_getElem P 0 (by omega)] at this
  omega

theorem countP_drop_of_none (p : Nat → Bool) (P : List Nat) (k : Nat)
    (h : ∀ i, k ≤ i → i < P.length → p (P.getD i 0) = false) : (P.drop k).countP p = 0 := by
  apply List.countP_eq_zero.2
  intro a ha
  obtain ⟨j, hj, rfl⟩ := List.mem_iff_getElem.1 ha
  rw [List.length_drop] at hj
  rw [List.getElem_drop]
  have := h (k + j) (by omega) (by omega)
  rw [List.getD_eq_getElem P 0 (by omega)] at this
  simp [this]

theorem countP_split (p : Nat → Bool) (P : List Nat) (k : Nat) :
    P.countP p = (P.take k).countP p + (P.drop k).countP p := by
  rw [← List.countP_append, List.take_append_drop]

/-- A position with only values `≤ m` before it and only values `> m` from it on is the number of
records `≤ m`. -/
theorem count_le_eq (P : List Nat) (m k : Nat) (hk : k ≤ P.length)
    (hlo : ∀ i < k, P.getD i 0 ≤ m) (hhi : ∀ i, k ≤ i → i < P.length → m < P.getD i 0) :
    count_le P m = k := by
  unfold count_le
  rw [countP_split _ P k, countP_take_of_all _ P k hk (by simpa using hlo),
    countP_drop_of_none _ P k (by
      intro i h1 h2
      have := hhi i h1 h2
      simp only [decide_eq_false_iff_not]
      omega)]
  rfl

theorem le_count_le (P : List Nat) (m k : Nat) (hk : k ≤ P.length)
    (hlo : ∀ i < k, P.getD i 0 ≤ m) : k ≤ count_le P m := by
  unfold count_le
  rw [countP_split _ P k, countP_take_of_all _ P k hk (by simpa using hlo)]
  omega

theorem count_lt_le (P : List Nat) (m k : Nat)
    (hhi : ∀ i, k ≤ i → i < P.length → m ≤ P.getD i 0) : count_lt P m ≤ k := by
  unfold count_lt
  rw [countP_split _ P k, countP_drop_of_none _ P k (by
      intro i h1 h2
      have := hhi i h1 h2
      simp only [decide_eq_false_iff_not]
      omega)]
  have h1 := List.countP_le_length (fun v => decide (v < m)) (l := P.take k)
  have h2 : (P.take k).length ≤ k := by simp [List.length_take]
  omega

theorem count_le_le_length (P : List Nat) (m : Nat) : count_le P m ≤ P.length :=
  List.countP_le_length _

theorem count_lt_le_count_le (P : List Nat) (m : Nat) : count_lt P m ≤ count_le P m := by
  apply List.countP_mono_left
  intro x _ hx
  simp only [decide_eq_true_eq] at hx ⊢
  omega

theorem count_le_le_count_lt (P : List Nat) {m M : Nat} (h : m < M) :
    count_le P m ≤ count_lt P M := by
  apply List.countP_mono_left
  intro x _ hx
  simp only [decide_eq_true_eq] at hx ⊢
  omega

theorem count_le_mono (P : List Nat) {m M : Nat} (h : m ≤ M) :
    count_le P m ≤ count_le P M := by
  apply List.countP_mono_left
  intro x _ hx
  simp only [decide_eq_true_eq] at hx ⊢
  omega

theorem count_lt_eq_length (P : List Nat) (m : Nat) (h : ∀ v ∈ P, v < m) :
    count_lt P m = P.length := by
  apply List.countP_eq_length.2
  intro a ha
  simpa using h a ha

/-! ## The two search loops on a step-bounded file -/

/-- The records up to the jump target stay below the bound. -/
theorem jump_safe {P : List Nat} (hsb : StepBounded P) {pos bound : Nat} (hpos : pos < P.length)
    (hv : P.getD pos 0 ≤ bound) (tmp : Nat) (ht : 2 * tmp ≤ bound - P.getD pos 0) :
    ∀ i, i ≤ pos + tmp → i < P.length → P.getD i 0 ≤ bound := by
  intro i hi hil
  by_cases hip : i ≤ pos
  · have := hsb.mono hip hpos
    omega
  · obtain ⟨j, rfl⟩ := Nat.exists_eq_add_of_le (Nat.le_of_lt (Nat.lt_of_not_le hip))
    have := hsb.advance pos j hil
    omega

/-- The jump of one loop iteration: its width `tmp` and the position after `pos += tmp; ++pos`,
which does not wrap. -/
theorem jump_width {P : List Nat} (hsb : StepBounded P) (hlen : P.length < SIZE)
    {bound pos : Nat} (hb : bound < SIZE) (hpos : pos < P.length) (hv : P.getD pos 0 ≤ bound) :
    ∃ tmp, (if bound - P.getD pos 0 > 2 then (bound - P.getD pos 0) >>> 1 else 0) = tmp ∧
      2 * tmp ≤ bound - P.getD pos 0 ∧
      wrap ((if bound - P.getD pos 0 > 2 then wrap (pos + tmp) else pos) + 1) = pos + tmp + 1 := by
  have hib := hsb.index_bounds pos hpos
  by_cases hd : bound - P.getD pos 0 > 2
  · simp only [if_pos hd]
    have h2 := shr_one (bound - P.getD pos 0)
    have h3 : pos + (bound - P.getD pos 0) >>> 1 + 1 < SIZE := by
      unfold SIZE at *
      omega
    refine ⟨_, rfl, by omega, ?_⟩
    rw [wrap_of_lt (n := pos + _) (by omega), wrap_of_lt h3]
  · simp only [if_neg hd]
    refine ⟨0, rfl, by omega, ?_⟩
    exact wrap_of_lt (by omega)

theorem lower_loop_spec {P : List Nat} (hsb : StepBounded P) (hlen : P.length < SIZE)
    {min : Nat} (hmin : min < SIZE) :
    ∀ k pos, P.length - pos ≤ k → pos < P.length → (∀ i < pos, P.getD i 0 ≤ min) →
      ∀ fuel, k ≤ fuel →
        lower_loop min P.length fuel pos (P.getD pos 0) ⟨P, pos + 1⟩ =
          some (if count_le P min < P.length then
              Outcome.exited (count_le P min) (P.getD (count_le P min) 0) ⟨P, count_le P min + 1⟩
            else Outcome.returned 0) := by
  intro k
  induction k with
  | zero => intro pos h1 h2; omega
  | succ k ih =>
    intro pos hk hpos hlo fuel hfuel
    obtain ⟨fuel, rfl⟩ : ∃ f, fuel = f + 1 := ⟨fuel - 1, by omega⟩
    have hl1 : usub P.length 1 = P.length - 1 := usub_of_le (by omega) hlen
    rw [lower_loop]
    by_cases hv : P.getD pos 0 ≤ min
    · rw [if_pos hv]
      obtain ⟨tmp, htmp, ht2, hp2⟩ := jump_width hsb hlen hmin hpos hv
      simp only [htmp, hp2, hl1]
      have hsafe := jump_safe hsb hpos hv tmp ht2
      by_cases hoff : pos + tmp + 1 > P.length - 1
      · rw [if_pos hoff]
        have hc : count_le P min = P.length := by
          apply count_le_eq P min P.length (Nat.le_refl _)
          · intro i hi; exact hsafe i (by omega) hi
          · intro i h1 h2; omega
        rw [hc, if_neg (Nat.lt_irrefl _)]
      · rw [if_neg hoff]
        have hin : pos + tmp + 1 < P.length := by omega
        have hf : fseek_cur ⟨P, pos + 1⟩ tmp = ⟨P, pos + tmp + 1⟩ := by
          simp [fseek_cur]; omega
        rw [hf, fread_inside P _ _ hin]
        exact ih (pos + tmp + 1) (by omega) hin (fun i hi => hsafe i (by omega) (by omega))
          fuel (by omega)
    · rw [if_neg hv]
      have hc : count_le P min = pos := by
        apply count_le_eq P min pos (by omega) hlo
        intro i h1 h2
        have := hsb.mono h1 h2
        omega
      rw [hc, if_pos hpos]

theorem upper_loop_spec {P : List Nat} (hsb : StepBounded P) (hlen : P.length < SIZE)
    {max : Nat} (hmax : max < SIZE) :
    ∀ k pos, P.length - pos ≤ k → pos < P.length → (∀ i < pos, P.getD i 0 ≤ max) →
      ∃ U, U ≤ P.length ∧ (∀ i < U, P.getD i 0 ≤ max) ∧ (U < P.length → max ≤ P.getD U 0) ∧
        ∀ fuel pos_min, k ≤ fuel →
          upper_loop max P.length pos_min fuel pos (P.getD pos 0) ⟨P, pos + 1⟩ =
            some (if U < P.length then Outcome.exited U (P.getD U 0) ⟨P, U + 1⟩
              else Outcome.returned (usub P.length pos_min)) := by
  intro k
  induction k with
  | zero => intro pos h1 h2; omega
  | succ k ih =>
    intro pos hk hpos hlo
    have hl1 : usub P.length 1 = P.length - 1 := usub_of_le (by omega) hlen
    by_cases hv : P.getD pos 0 < max
    · obtain ⟨tmp, htmp, ht2, hp2⟩ := jump_width hsb hlen hmax hpos (Nat.le_of_lt hv)
      have hsafe := jump_safe hsb hpos (Nat.le_of_lt hv) tmp ht2
      by_cases hoff : pos + tmp + 1 > P.length - 1
      · refine ⟨P.length, Nat.le_refl _, fun i hi => hsafe i (by omega) hi,
          fun h => absurd h (Nat.lt_irrefl _), fun fuel pos_min hfuel => ?_⟩
        obtain ⟨fuel, rfl⟩ : ∃ f, fuel = f + 1 := ⟨fuel - 1, by omega⟩
        rw [upper_loop, if_pos hv]
        simp only [htmp, hp2, hl1]
        rw [if_pos hoff, if_neg (Nat.lt_irrefl _)]
      · have hin : pos + tmp + 1 < P.length := by omega
        obtain ⟨U, hU1, hU2, hU3, hU4⟩ := ih (pos + tmp + 1) (by omega) hin
          (fun i hi => hsafe i (by omega) (by omega))
        refine ⟨U, hU1, hU2, hU3, fun fuel pos_min hfuel => ?_⟩
        obtain ⟨fuel, rfl⟩ : ∃ f, fuel = f + 1 := ⟨fuel - 1, by omega⟩
        rw [upper_loop, if_pos hv]
        simp only [htmp, hp2, hl1]
        rw [if_neg hoff]
        have hf : fseek_cur ⟨P, pos + 1⟩ tmp = ⟨P, pos + tmp + 1⟩ := by
          simp [fseek_cur]; omega
        rw [hf, fread_inside P _ _ hin]
        exact hU4 fuel pos_min (by omega)
    · refine ⟨pos, Nat.le_of_lt hpos, hlo, fun _ => Nat.le_of_not_lt hv,
        fun fuel pos_min hfuel => ?_⟩
      obtain ⟨fuel, rfl⟩ : ∃ f, fuel = f + 1 := ⟨fuel - 1, by omega⟩
      rw [upper_loop, if_neg hv, if_pos hpos]
/-! ## What `more_effective` computes -/

theorem more_effective_comm (fuel : Nat) (file : Option (List Nat)) (a b : Nat) :
    more_effective fuel file a b = more_effective fuel file b a := by
  unfold more_effective
  by_cases h : a = b
  · subst h; rfl
  · rw [if_neg h, if_neg (Ne.symm h), show Nat.min a b = Nat.min b a from Nat.min_comm a b,
      show Nat.max a b = Nat.max b a from Nat.max_comm a b]

/-- Every record of a step-bounded file is below twice the length. -/
theorem StepBounded.below_seed {P : List Nat} (hsb : StepBounded P) {m : Nat}
    (h : m / 2 > P.length - 1) : ∀ i < P.length, P.getD i 0 < m := by
  intro i hi
  have := hsb.index_bounds i hi
  omega

/-- What `more_effective` computes on a step-bounded file: the number of records `≤ min` is
subtracted from a position `U` that depends on the file and on `max` only and lies between the
number of records `< max` and the number of records `≤ max`. -/
theorem more_effective_char {P : List Nat} (hsb : StepBounded P) (hlen : P.length < SIZE)
    {M : Nat} (hM : M < SIZE) :
    ∃ U, U ≤ P.length ∧ count_lt P M ≤ U ∧ U ≤ count_le P M ∧
      ∀ fuel m, P.length ≤ fuel → m < M →
        more_effective fuel (some P) m M =
          some (if count_le P m < P.length then U - count_le P m else 0) := by
  have hpos := hsb.1
  have hl1 : usub P.length 1 = P.length - 1 := usub_of_le (by omega) hlen
  -- the upper-bound resolution, on its own
  obtain ⟨U, hU1, hU2, hU3, hU4⟩ : ∃ U, U ≤ P.length ∧ (∀ i < U, P.getD i 0 ≤ M) ∧
      count_lt P M ≤ U ∧ ∀ fuel pos_min c v, P.length ≤ fuel →
        (if M >>> 1 > usub P.length 1 then some (usub P.length pos_min)
          else
            match upper_loop M P.length pos_min fuel (M >>> 1)
                (fread (fseek_set ⟨P, c⟩ (M >>> 1)) v).1
                (fread (fseek_set ⟨P, c⟩ (M >>> 1)) v).2 with
            | none => none
            | some (Outcome.returned n) => some n
            | some (Outcome.exited pos_max _ _) => some (usub pos_max pos_min))
          = some (usub U pos_min) := by
    rw [hl1, shr_one]
    by_cases hg : M / 2 > P.length - 1
    · refine ⟨P.length, Nat.le_refl _, ?_, ?_, ?_⟩
      · intro i hi; exact Nat.le_of_lt (hsb.below_seed hg i hi)
      · exact List.countP_le_length _
      · intro fuel pos_min c v _
        rw [if_pos hg]
    · have hin : M / 2 < P.length := by omega
      obtain ⟨U, h1, h2, h3, h4⟩ := upper_loop_spec hsb hlen hM P.length (M / 2) (by omega) hin
        (fun i hi => by have := hsb.index_bounds i (by omega); omega)
      refine ⟨U, h1, h2, ?_, ?_⟩
      · apply count_lt_le
        intro i hi1 hi2
        have := h3 (by omega)
        have := hsb.mono hi1 hi2
        omega
      · intro fuel pos_min c v hf
        rw [if_neg hg]
        have hs : fseek_set ⟨P, c⟩ (M / 2) = ⟨P, M / 2⟩ := rfl
        rw [hs, fread_inside P _ _ hin, h4 fuel pos_min hf]
        by_cases hU : U < P.length
        · rw [if_pos hU]
        · rw [if_neg hU]
          have : U = P.length := by omega
          rw [this]
  refine ⟨U, hU1, hU3, le_count_le P M U hU1 hU2, ?_⟩
  intro fuel m hfuel hmM
  have hm : m < SIZE := Nat.lt_trans hmM hM
  have hLU : count_le P m ≤ U := Nat.le_trans (count_le_le_count_lt P hmM) hU3
  unfold more_effective
  rw [if_neg (Nat.ne_of_lt hmM)]
  have hmin : Nat.min m M = m := Nat.min_eq_left (Nat.le_of_lt hmM)
  have hmax : Nat.max m M = M := Nat.max_eq_right (Nat.le_of_lt hmM)
  simp only [hmin, hmax]
  by_cases hg : m >>> 1 > usub P.length 1
  · rw [if_pos hg]
    rw [hl1, shr_one] at hg
    have hc : count_le P m = P.length := by
      apply count_le_eq P m P.length (Nat.le_refl _)
      · intro i hi; exact Nat.le_of_lt (hsb.below_seed hg i hi)
      · intro i h1 h2; omega
    rw [hc, if_neg (Nat.lt_irrefl _)]
  · rw [if_neg hg]
    rw [hl1, shr_one] at hg
    have hin : m >>> 1 < P.length := by rw [shr_one]; omega
    have hs : fseek_set ⟨P, P.length⟩ (m >>> 1) = ⟨P, m >>> 1⟩ := rfl
    rw [hs, fread_inside P _ _ hin, lower_loop_spec hsb hlen hm P.length (m >>> 1) (by omega) hin
      (fun i hi => by
        rw [shr_one] at hi
        have := hsb.index_bounds i (by omega); omega) fuel hfuel]
    by_cases hL : count_le P m < P.length
    · simp only [if_pos hL]
      have h := hU4 fuel (count_le P m) (count_le P m + 1) (P.getD (count_le P m) 0) hfuel
      rw [usub_of_le hLU (by omega)] at h
      exact h
    · simp only [if_neg hL]
/-! ## `simple` is a count -/

theorem simple_loop_eq (lo hi : Nat) (P : List Nat) :
    ∀ k c n v, c + k = P.length →
      simple_loop lo hi k n v ⟨P, c⟩ = n + count_between (P.drop c) lo hi := by
  intro k
  induction k with
  | zero =>
    intro c n v h
    have : P.drop c = [] := List.drop_eq_nil_of_le (by omega)
    simp [simple_loop, count_between, this]
  | succ k ih =>
    intro c n v h
    have hc : c < P.length := by omega
    rw [simple_loop, fread_inside P c v hc]
    simp only []
    rw [ih (c + 1) _ _ (by omega), List.drop_eq_getElem_cons hc, ← List.getD_eq_getElem P 0 hc]
    unfold count_between
    rw [List.countP_cons]
    by_cases hp : P.getD c 0 > lo ∧ P.getD c 0 < hi
    · rw [if_pos hp]
      have : decide (lo < P.getD c 0 ∧ P.getD c 0 < hi) = true := decide_eq_true hp
      simp only [this, if_true]
      omega
    · rw [if_neg hp]
      have : decide (lo < P.getD c 0 ∧ P.getD c 0 < hi) = false := decide_eq_false hp
      simp only [this, Bool.false_eq_true, if_false, Nat.add_zero]

theorem simple_eq_count (P : List Nat) (a b : Nat) :
    simple (some P) a b = count_between P (Nat.min a b) (Nat.max a b) := by
  unfold simple
  have hs : fseek_set ⟨P, P.length⟩ 0 = ⟨P, 0⟩ := rfl
  simp only [hs]
  rw [simple_loop_eq _ _ P P.length 0 0 0 (by omega)]
  simp

theorem count_between_self (P : List Nat) (x y : Nat) (h : y ≤ x) : count_between P x y = 0 := by
  apply List.countP_eq_zero.2
  intro a _
  simp only [decide_eq_true_eq]
  omega

theorem simple_comm (file : Option (List Nat)) (a b : Nat) :
    simple file a b = simple file b a := by
  unfold simple
  rw [show Nat.min a b = Nat.min b a from Nat.min_comm a b,
    show Nat.max a b = Nat.max b a from Nat.max_comm a b]

/-- The result of `more_effective` on a step-bounded file for any pair of distinct bounds, in the
form used for comparing two calls. -/
theorem more_effective_char_ne {P : List Nat} (hsb : StepBounded P) (hlen : P.length < SIZE)
    {M : Nat} (hM : M < SIZE) :
    ∃ U, U ≤ P.length ∧ count_lt P M ≤ U ∧ U ≤ count_le P M ∧
      ∀ fuel a b, P.length ≤ fuel → a ≠ b → Nat.max a b = M →
        more_effective fuel (some P) a b =
          some (if count_le P (Nat.min a b) < P.length then U - count_le P (Nat.min a b) else 0) := by
  obtain ⟨U, h1, h2, h3, h4⟩ := more_effective_char hsb hlen hM
  refine ⟨U, h1, h2, h3, ?_⟩
  intro fuel a b hf hab hmax
  rcases Nat.lt_or_gt_of_ne hab with hlt | hgt
  · have e1 : Nat.max a b = b := Nat.max_eq_right (Nat.le_of_lt hlt)
    have e2 : Nat.min a b = a := Nat.min_eq_left (Nat.le_of_lt hlt)
    rw [e1] at hmax
    subst hmax
    rw [e2]
    exact h4 fuel a hf hlt
  · have e1 : Nat.max a b = a := Nat.max_eq_left (Nat.le_of_lt hgt)
    have e2 : Nat.min a b = b := Nat.min_eq_right (Nat.le_of_lt hgt)
    rw [e1] at hmax
    subst hmax
    rw [e2, more_effective_comm]
    exact h4 fuel b hf hgt

/-! ## What `write_numbers` writes -/

theorem add_int_in_range (v : Nat) (s : Int) (h0 : 0 ≤ (v : Int) + s)
    (h1 : (v : Int) + s < 18446744073709551616) : (add_int v s : Int) = (v : Int) + s := by
  unfold add_int
  rw [Int.emod_eq_of_lt h0 h1, Int.toNat_of_nonneg h0]

theorem write_loop_spec {G : Type} (random : G → Int × G) :
    ∀ k value g,
      (write_loop random k value g).1.length = k ∧
      (write_loop random k value g).2 = state_after random g k ∧
      ∀ i < k, (write_loop random k value g).1.getD i 0 =
        add_int (if i = 0 then value else (write_loop random k value g).1.getD (i - 1) 0)
          (step_result random g i) := by
  intro k
  induction k with
  | zero => intro value g; simp [write_loop, state_after]
  | succ k ih =>
    intro value g
    obtain ⟨h1, h2, h3⟩ := ih (add_int value (random g).1) (random g).2
    refine ⟨by simp [write_loop, h1], by simp [write_loop, h2, state_after], ?_⟩
    intro i hi
    cases i with
    | zero => simp [write_loop, step_result, state_after]
    | succ i =>
      have := h3 i (by omega)
      simp only [write_loop, List.getD_cons_succ, Nat.add_sub_cancel]
      rw [this]
      cases i with
      | zero => simp [step_result, state_after]
      | succ j => simp [step_result, state_after]

theorem write_numbers_spec {G : Type} (N : Nat) (random : G → Int × G) (g : G) :
    (write_numbers N random g).1.length = N - 1 + 1 ∧
    (write_numbers N random g).1.getD 0 1 = 0 ∧
    (write_numbers N random g).2 = state_after random g (N - 1) ∧
    ∀ i, 1 ≤ i → i < N →
      (write_numbers N random g).1.getD i 0 =
        add_int ((write_numbers N random g).1.getD (i - 1) 0) (step_result random g (i - 1)) := by
  obtain ⟨h1, h2, h3⟩ := write_loop_spec random (N - 1) 0 g
  refine ⟨by simp [write_numbers, h1], by simp [write_numbers], by simp [write_numbers, h2], ?_⟩
  intro i hi hN
  obtain ⟨j, rfl⟩ : ∃ j, i = j + 1 := ⟨i - 1, by omega⟩
  have := h3 j (by omega)
  simp only [write_numbers, List.getD_cons_succ, Nat.add_sub_cancel]
  rw [this]
  cases j with
  | zero => simp
  | succ j => simp


theorem add_int_step (v : Nat) (s : Int) (hs : s = 1 ∨ s = 2) (hv : v + 2 < SIZE) :
    add_int v s = v + 1 ∨ add_int v s = v + 2 := by
  unfold SIZE at hv
  have h := add_int_in_range v s (by omega) (by omega)
  omega

theorem written_step_bounded {G : Type} (N : Nat) (hN : 2 * N ≤ SIZE) (random : G → Int × G)
    (g : G) (hstep : ∀ k, k + 1 < N → step_result random g k = 1 ∨ step_result random g k = 2) :
    StepBounded (write_numbers N random g).1 := by
  obtain ⟨h1, h2, -, h4⟩ := write_numbers_spec N random g
  have h0 : (write_numbers N random g).1.getD 0 0 = 0 := by
    rw [List.getD_eq_getElem _ _ (by omega)] at h2 ⊢
    exact h2
  have key : ∀ i, i < N → (write_numbers N random g).1.getD i 0 ≤ 2 * i ∧
      (1 ≤ i → (write_numbers N random g).1.getD i 0 =
          (write_numbers N random g).1.getD (i - 1) 0 + 1 ∨
        (write_numbers N random g).1.getD i 0 =
          (write_numbers N random g).1.getD (i - 1) 0 + 2) := by
    intro i
    induction i with
    | zero => intro _; exact ⟨by omega, fun h => absurd h (by omega)⟩
    | succ i ih =>
      intro hi
      have hprev := (ih (by omega)).1
      have hrec := h4 (i + 1) (by omega) hi
      simp only [Nat.add_sub_cancel] at hrec ⊢
      have := add_int_step ((write_numbers N random g).1.getD i 0) _ (hstep i hi)
        (by unfold SIZE at *; omega)
      rw [← hrec] at this
      exact ⟨by omega, fun _ => this⟩
  refine ⟨by omega, h0, ?_⟩
  intro i hi
  have := (key (i + 1) (by omega)).2 (by omega)
  simpa using this

/-! ## The claims -/

/-- The comparisons made by `test()` all come out equal: on the test sequence `more_effective`
and `simple` agree on the sixteen bound pairs. -/
theorem test_passes :
    test_pairs.all (fun p =>
      decide (more_effective 10 (some test_sequence) p.1 p.2 =
        some (simple (some test_sequence) p.1 p.2))) = true := by
  decide

/-- C1 (equivalence with the oracle) does not hold for the code: on the step-bounded file
`0 1 2 3 5 7`, which `write_numbers` writes for the step results 1, 1, 1, 2, 2, with the bounds
`(0, 7)` the function `more_effective` returns 5 as soon as each loop may run twice, while
`simple` returns 4, the number of records strictly between 0 and 7. -/
theorem more_effective_differs_from_simple :
    (write_numbers 6 replay [1, 1, 1, 2, 2]).1 = [0, 1, 2, 3, 5, 7] ∧
      StepBounded [0, 1, 2, 3, 5, 7] ∧
      (∀ fuel, more_effective (fuel + 2) (some [0, 1, 2, 3, 5, 7]) 0 7 = some 5) ∧
      simple (some [0, 1, 2, 3, 5, 7]) 0 7 = 4 ∧ count_between [0, 1, 2, 3, 5, 7] 0 7 = 4 := by
  refine ⟨by decide, by decide, fun fuel => rfl, by decide, by decide⟩

/-- C2 (symmetry): for every file, openable or not, all bounds and every fuel, `more_effective`
gives the same result on `(a, b)` and on `(b, a)`, and so does `simple`. -/
theorem more_effective_symmetric (fuel : Nat) (file : Option (List Nat)) (a b : Nat) :
    more_effective fuel file a b = more_effective fuel file b a ∧
      simple file a b = simple file b a :=
  ⟨more_effective_comm fuel file a b, simple_comm file a b⟩

/-- C3 (empty interval): for every `x`, every file (whatever its content, and also when it cannot
be opened) and every fuel, `more_effective` returns 0 on `(x, x)`, and `simple` returns 0 as
well. -/
theorem empty_interval_zero (fuel : Nat) (file : Option (List Nat)) (x : Nat) :
    more_effective fuel file x x = some 0 ∧ simple file x x = 0 := by
  constructor
  · simp [more_effective]
  · cases file with
    | none => rfl
    | some P =>
      rw [simple_eq_count]
      exact count_between_self P _ _ (by
        show max x x ≤ min x x
        simp)

/-- C4 (monotonic containment): on a step-bounded file whose length fits `size_t`, for bounds
`a1 ≤ a2 ≤ b2 ≤ b1` in the range of `size_t`, both calls of `more_effective` return (with fuel at
least the length), and the result for `(a1, b1)` is at least the result for `(a2, b2)`. -/
theorem monotonic_containment (P : List Nat) (hsb : StepBounded P) (hlen : P.length < SIZE)
    (a1 a2 b2 b1 : Nat) (hb1 : b1 < SIZE) (h1 : a1 ≤ a2) (h2 : a2 ≤ b2) (h3 : b2 ≤ b1)
    (fuel1 fuel2 : Nat) (hf1 : P.length ≤ fuel1) (hf2 : P.length ≤ fuel2) :
    ∃ r1 r2, more_effective fuel1 (some P) a1 b1 = some r1 ∧
      more_effective fuel2 (some P) a2 b2 = some r2 ∧ r2 ≤ r1 := by
  by_cases e2 : a2 = b2
  · subst e2
    by_cases e1 : a1 = b1
    · subst e1
      exact ⟨0, 0, by simp [more_effective], by simp [more_effective], Nat.le_refl _⟩
    · obtain ⟨U, -, -, -, hU⟩ := more_effective_char_ne hsb hlen
        (show Nat.max a1 b1 < SIZE from by
          rw [show Nat.max a1 b1 = b1 from Nat.max_eq_right (by omega)]; exact hb1)
      exact ⟨_, 0, hU fuel1 a1 b1 hf1 e1 rfl, by simp [more_effective], Nat.zero_le _⟩
  · have hm1 : Nat.max a1 b1 = b1 := Nat.max_eq_right (by omega)
    have hm2 : Nat.max a2 b2 = b2 := Nat.max_eq_right h2
    have hn1 : Nat.min a1 b1 = a1 := Nat.min_eq_left (by omega)
    have hn2 : Nat.min a2 b2 = a2 := Nat.min_eq_left h2
    have hL := count_le_mono P h1
    have hL2 := count_le_le_length P a2
    by_cases hb : b2 = b1
    · subst hb
      obtain ⟨U, -, -, -, hU⟩ := more_effective_char_ne hsb hlen hb1
      refine ⟨_, _, hU fuel1 a1 b2 hf1 (by omega) hm1, hU fuel2 a2 b2 hf2 e2 hm2, ?_⟩
      rw [hn1, hn2]
      split_ifs <;> omega
    · obtain ⟨U1, -, hU1, -, hV1⟩ := more_effective_char_ne hsb hlen hb1
      obtain ⟨U2, -, -, hU2, hV2⟩ := more_effective_char_ne hsb hlen
        (show b2 < SIZE from by omega)
      have hmid := count_le_le_count_lt P (show b2 < b1 from by omega)
      refine ⟨_, _, hV1 fuel1 a1 b1 hf1 (by omega) hm1, hV2 fuel2 a2 b2 hf2 e2 hm2, ?_⟩
      rw [hn1, hn2]
      split_ifs <;> omega

/-- Witness of C4: the test sequence with `0 ≤ 1 ≤ 9 ≤ 13`. -/
theorem monotonic_containment_witness :
    StepBounded test_sequence ∧ test_sequence.length < SIZE ∧ 13 < SIZE ∧ 0 ≤ 1 ∧ 1 ≤ 9 ∧
      9 ≤ 13 ∧ test_sequence.length ≤ 10 ∧
      ∃ r1 r2, more_effective 10 (some test_sequence) 0 13 = some r1 ∧
        more_effective 10 (some test_sequence) 1 9 = some r2 ∧ r2 ≤ r1 :=
  ⟨by decide, by decide, by decide, by decide, by decide, by decide, by decide,
    monotonic_containment test_sequence (by decide) (by decide) 0 1 9 13 (by decide) (by decide)
      (by decide) (by decide) 10 10 (by decide) (by decide)⟩

/-- C5 (boundary beyond the file): on a step-bounded file whose length fits `size_t`, for bounds
in the range of `size_t` whose maximum is strictly greater than every stored value,
`more_effective` returns (with fuel at least the length) the length minus the number of stored
values `≤ min(a, b)`. -/
theorem boundary_beyond_file (P : List Nat) (hsb : StepBounded P) (hlen : P.length < SIZE)
    (a b : Nat) (ha : a < SIZE) (hb : b < SIZE) (hbig : ∀ v ∈ P, v < Nat.max a b)
    (fuel : Nat) (hf : P.length ≤ fuel) :
    more_effective fuel (some P) a b = some (P.length - count_le P (Nat.min a b)) := by
  by_cases e : a = b
  · subst e
    have hall : count_le P (Nat.min a a) = P.length := by
      apply List.countP_eq_length.2
      intro v hv
      have h1 := hbig v hv
      have h2 : Nat.max a a = a := Nat.max_self a
      have h3 : Nat.min a a = a := Nat.min_self a
      rw [h2] at h1
      rw [h3]
      simpa using Nat.le_of_lt h1
    rw [hall]
    simp [more_effective]
  · have hM : Nat.max a b < SIZE := by
      rcases Nat.le_total a b with h | h
      · rw [show Nat.max a b = b from Nat.max_eq_right h]; exact hb
      · rw [show Nat.max a b = a from Nat.max_eq_left h]; exact ha
    obtain ⟨U, hU1, hU2, -, hU⟩ := more_effective_char_ne hsb hlen hM
    rw [hU fuel a b hf e rfl]
    have hfull := count_lt_eq_length P _ hbig
    have hL := count_le_le_length P (Nat.min a b)
    congr 1
    split_ifs <;> omega

/-- Witness of C5: the test sequence with the bounds `(3, 20)` of `test()`. -/
theorem boundary_beyond_file_witness :
    StepBounded test_sequence ∧ test_sequence.length < SIZE ∧ 3 < SIZE ∧ 20 < SIZE ∧
      (∀ v ∈ test_sequence, v < Nat.max 3 20) ∧ test_sequence.length ≤ 10 ∧
      more_effective 10 (some test_sequence) 3 20 =
        some (test_sequence.length - count_le test_sequence (Nat.min 3 20)) :=
  ⟨by decide, by decide, by decide, by decide, by decide, by decide,
    boundary_beyond_file test_sequence (by decide) (by decide) 3 20 (by decide) (by decide)
      (by decide) 10 (by decide)⟩

/-- C6 (oracle contract): for every file that can be opened, whatever its records, and all bounds,
`simple` returns the number of records `v` with `min(a, b) < v < max(a, b)`. -/
theorem simple_counts (P : List Nat) (a b : Nat) :
    simple (some P) a b = count_between P (Nat.min a b) (Nat.max a b) :=
  simple_eq_count P a b

/-- C7 (writer contract): for every count `N ≥ 1` and every generator, `write_numbers` writes
exactly `N` records, record 0 is 0, and for `1 ≤ i < N` record `i` is record `i - 1` plus the
result `s_i` of call number `i` of the step function, in the addition of `size_t` (which is the
plain sum whenever that sum lies in the range of `size_t`); the generator is left in the state
reached after exactly `N - 1` calls. -/
theorem write_numbers_contract {G : Type} (N : Nat) (hN : 1 ≤ N) (random : G → Int × G) (g : G) :
    (write_numbers N random g).1.length = N ∧
    (write_numbers N random g).1.getD 0 1 = 0 ∧
    (write_numbers N random g).2 = state_after random g (N - 1) ∧
    ∀ i, 1 ≤ i → i < N →
      (write_numbers N random g).1.getD i 0 =
        add_int ((write_numbers N random g).1.getD (i - 1) 0) (step_result random g (i - 1)) ∧
      (0 ≤ ((write_numbers N random g).1.getD (i - 1) 0 : Int) + step_result random g (i - 1) →
        ((write_numbers N random g).1.getD (i - 1) 0 : Int) + step_result random g (i - 1)
          < 18446744073709551616 →
        ((write_numbers N random g).1.getD i 0 : Int) =
          ((write_numbers N random g).1.getD (i - 1) 0 : Int) + step_result random g (i - 1)) := by
  obtain ⟨h1, h2, h3, h4⟩ := write_numbers_spec N random g
  refine ⟨by omega, h2, h3, fun i hi hiN => ⟨h4 i hi hiN, fun h0 hlt => ?_⟩⟩
  rw [h4 i hi hiN]
  exact add_int_in_range _ _ h0 hlt

/-- Witness of C7: six records written with the step results 1, 1, 1, 2, 2. -/
theorem write_numbers_contract_witness :
    1 ≤ 6 ∧
    ((write_numbers 6 replay [1, 1, 1, 2, 2]).1.length = 6 ∧
    (write_numbers 6 replay [1, 1, 1, 2, 2]).1.getD 0 1 = 0 ∧
    (write_numbers 6 replay [1, 1, 1, 2, 2]).2 = state_after replay [1, 1, 1, 2, 2] (6 - 1) ∧
    ∀ i, 1 ≤ i → i < 6 →
      (write_numbers 6 replay [1, 1, 1, 2, 2]).1.getD i 0 =
        add_int ((write_numbers 6 replay [1, 1, 1, 2, 2]).1.getD (i - 1) 0)
          (step_result replay [1, 1, 1, 2, 2] (i - 1)) ∧
      (0 ≤ ((write_numbers 6 replay [1, 1, 1, 2, 2]).1.getD (i - 1) 0 : Int) +
          step_result replay [1, 1, 1, 2, 2] (i - 1) →
        ((write_numbers 6 replay [1, 1, 1, 2, 2]).1.getD (i - 1) 0 : Int) +
          step_result replay [1, 1, 1, 2, 2] (i - 1) < 18446744073709551616 →
        ((write_numbers 6 replay [1, 1, 1, 2, 2]).1.getD i 0 : Int) =
          ((write_numbers 6 replay [1, 1, 1, 2, 2]).1.getD (i - 1) 0 : Int) +
            step_result replay [1, 1, 1, 2, 2] (i - 1))) :=
  ⟨by decide, write_numbers_contract 6 (by decide) replay [1, 1, 1, 2, 2]⟩

/-- C8 (data-model invariant of written files): when every step result used is 1 or 2 and the
values stay in the range of `size_t` (`N ≤ 2^63`), the records written by `write_numbers` are
step-bounded, strictly increasing (hence sorted and without duplicates), and every index `i`
satisfies `i ≤ P(i) ≤ 2 * i`, so the index of a stored value `v` lies between `v / 2` and `v`. -/
theorem written_file_invariant {G : Type} (N : Nat) (hN : 2 * N ≤ SIZE) (random : G → Int × G)
    (g : G) (hstep : ∀ k, k + 1 < N → step_result random g k = 1 ∨ step_result random g k = 2) :
    StepBounded (write_numbers N random g).1 ∧
    (∀ i j, i < j → j < (write_numbers N random g).1.length →
      (write_numbers N random g).1.getD i 0 < (write_numbers N random g).1.getD j 0) ∧
    (write_numbers N random g).1.Sorted (fun x y => x < y) ∧
    (write_numbers N random g).1.Nodup ∧
    ∀ i, i < (write_numbers N random g).1.length →
      i ≤ (write_numbers N random g).1.getD i 0 ∧
      (write_numbers N random g).1.getD i 0 ≤ 2 * i ∧
      (write_numbers N random g).1.getD i 0 / 2 ≤ i := by
  have hsb := written_step_bounded N hN random g hstep
  have hlt : ∀ i j, i < j → j < (write_numbers N random g).1.length →
      (write_numbers N random g).1.getD i 0 < (write_numbers N random g).1.getD j 0 :=
    fun i j hij hj => hsb.strict_mono hij hj
  have hsorted : (write_numbers N random g).1.Sorted (fun x y => x < y) := by
    apply List.pairwise_iff_get.2
    intro i j hij
    have := hlt i j hij j.2
    rwa [List.getD_eq_getElem _ _ (by omega), List.getD_eq_getElem _ _ j.2] at this
  refine ⟨hsb, hlt, hsorted, hsorted.nodup, fun i hi => ?_⟩
  have := hsb.index_bounds i hi
  omega

/-- Witness of C8: six records written with the step results 1, 1, 1, 2, 2. -/
theorem written_file_invariant_witness :
    2 * 6 ≤ SIZE ∧
    (∀ k, k + 1 < 6 → step_result replay [1, 1, 1, 2, 2] k = 1 ∨
      step_result replay [1, 1, 1, 2, 2] k = 2) ∧
    (StepBounded (write_numbers 6 replay [1, 1, 1, 2, 2]).1 ∧
    (∀ i j, i < j → j < (write_numbers 6 replay [1, 1, 1, 2, 2]).1.length →
      (write_numbers 6 replay [1, 1, 1, 2, 2]).1.getD i 0 <
        (write_numbers 6 replay [1, 1, 1, 2, 2]).1.getD j 0) ∧
    (write_numbers 6 replay [1, 1, 1, 2, 2]).1.Sorted (fun x y => x < y) ∧
    (write_numbers 6 replay [1, 1, 1, 2, 2]).1.Nodup ∧
    ∀ i, i < (write_numbers 6 replay [1, 1, 1, 2, 2]).1.length →
      i ≤ (write_numbers 6 replay [1, 1, 1, 2, 2]).1.getD i 0 ∧
      (write_numbers 6 replay [1, 1, 1, 2, 2]).1.getD i 0 ≤ 2 * i ∧
      (write_numbers 6 replay [1, 1, 1, 2, 2]).1.getD i 0 / 2 ≤ i) :=
  have hs : ∀ k, k + 1 < 6 → step_result replay [1, 1, 1, 2, 2] k = 1 ∨
      step_result replay [1, 1, 1, 2, 2] k = 2 := by
    intro k hk
    have h5 : k < 5 := by omega
    interval_cases k <;> decide
  ⟨by decide, hs, written_file_invariant 6 (by decide) replay [1, 1, 1, 2, 2] hs⟩

/-- The claim C9 as written (`more_effective(3, 20)` equals 6 on the test sequence) fails:
with no amount of fuel does `more_effective` return 6 there. -/
theorem scenario_3_20_is_not_6 :
    ¬ ∃ fuel, more_effective fuel (some test_sequence) 3 20 = some 6 := by
  rintro ⟨fuel, h⟩
  match fuel, h with
  | 0, h => exact absurd h (by decide)
  | 1, h => exact absurd h (by decide)
  | 2, h => exact absurd h (by decide)
  | fuel + 3, h =>
    have h7 : more_effective (fuel + 3) (some test_sequence) 3 20 = some 7 := rfl
    rw [h7] at h
    exact absurd h (by decide)

/-- C9, amended: on the 10-record test sequence `more_effective(3, 20)` returns 7 as soon as each
loop may run three times, which is the number of records strictly between 3 and 20
(4, 5, 7, 8, 9, 10 and 12) and the result of `simple`. -/
theorem scenario_3_20_is_7 :
    (∀ fuel, more_effective (fuel + 3) (some test_sequence) 3 20 = some 7) ∧
      simple (some test_sequence) 3 20 = 7 ∧ count_between test_sequence 3 20 = 7 :=
  ⟨fun _ => rfl, by decide, by decide⟩

/-- C10 (concrete scenario, bounds inside the file): on the 10-record test sequence, as soon as
each loop may run three times, `more_effective(0, 3)` returns 2, `more_effective(9, 12)` returns 1
and `more_effective(5, 5)` returns 0. -/
theorem scenario_in_file_bounds (fuel : Nat) :
    test_sequence = [0, 1, 2, 4, 5, 7, 8, 9, 10, 12] ∧
      more_effective (fuel + 3) (some test_sequence) 0 3 = some 2 ∧
      more_effective (fuel + 3) (some test_sequence) 9 12 = some 1 ∧
      more_effective (fuel + 3) (some test_sequence) 5 5 = some 0 :=
  ⟨rfl, rfl, rfl, rfl⟩

/-! ## The two resolutions inside `more_effective` -/

/-- `more_effective` is its lower-bound resolution followed by its upper-bound resolution. -/
theorem more_effective_eq_searches (fuel : Nat) (data : List Nat) (a b : Nat) :
    more_effective fuel (some data) a b =
      if a = b then some 0
      else
        match lower_search (Nat.min a b) data fuel with
        | none => none
        | some (Outcome.returned n) => some n
        | some (Outcome.exited pos_min value f) =>
          match upper_search (Nat.max a b) data.length pos_min fuel value f with
          | none => none
          | some (Outcome.returned n) => some n
          | some (Outcome.exited pos_max _ _) => some (usub pos_max pos_min) := by
  unfold more_effective lower_search upper_search
  by_cases h : a = b
  · rw [if_pos h, if_pos h]
  · rw [if_neg h, if_neg h]
    simp only []
    split
    · rfl
    · split <;> first | rfl | (split <;> rfl)

/-! ## The empty file and the one-record file -/

theorem fread_empty (c v : Nat) : fread ⟨[], c⟩ v = (v, ⟨[], c⟩) :=
  fread_outside [] c v (Nat.zero_le _)

theorem wrap_le_max (n : Nat) : ¬ wrap n > usub 0 1 := by
  unfold wrap usub
  omega

/-- On the empty file the lower loop never ends: no position exceeds the wrapped `length - 1`,
and every read fails and leaves `value` at 0. -/
theorem lower_loop_empty (min : Nat) :
    ∀ fuel pos c, lower_loop min 0 fuel pos 0 ⟨[], c⟩ = none := by
  intro fuel
  induction fuel with
  | zero => intro pos c; rfl
  | succ fuel ih =>
    intro pos c
    rw [lower_loop, if_pos (Nat.zero_le _)]
    simp only []
    rw [if_neg (wrap_le_max _)]
    have hs : ∀ t, fseek_cur ⟨[], c⟩ t = ⟨[], c + t⟩ := fun t => rfl
    rw [hs, fread_empty]
    exact ih _ _

theorem more_effective_empty (fuel a b : Nat) (hab : a ≠ b) (hmin : Nat.min a b < SIZE) :
    more_effective fuel (some []) a b = none := by
  rw [more_effective_eq_searches, if_neg hab]
  have hg : ¬ Nat.min a b >>> 1 > usub ([] : List Nat).length 1 := by
    rw [shr_one]
    unfold SIZE at hmin
    unfold usub
    simp only [List.length_nil]
    omega
  have : lower_search (Nat.min a b) [] fuel = none := by
    unfold lower_search
    simp only []
    rw [if_neg hg]
    have hs : fseek_set ⟨[], ([] : List Nat).length⟩ (Nat.min a b >>> 1) = ⟨[], Nat.min a b >>> 1⟩ := rfl
    rw [hs, fread_empty]
    exact lower_loop_empty _ _ _ _
  rw [this]

theorem more_effective_single (fuel a b : Nat) :
    more_effective (fuel + 1) (some [0]) a b = some 0 := by
  rw [more_effective_eq_searches]
  by_cases hab : a = b
  · rw [if_pos hab]
  · rw [if_neg hab]
    have : lower_search (Nat.min a b) [0] (fuel + 1) = some (Outcome.returned 0) := by
      unfold lower_search
      simp only []
      by_cases hg : Nat.min a b >>> 1 > usub [0].length 1
      · rw [if_pos hg]
      · rw [if_neg hg]
        have h0 : Nat.min a b >>> 1 = 0 := by
          have : usub [0].length 1 = 0 := by decide
          omega
        rw [h0]
        have hr : fread (fseek_set ⟨[0], [0].length⟩ 0) 0 = (0, ⟨[0], 1⟩) := rfl
        rw [hr, lower_loop, if_pos (Nat.zero_le _)]
        have hsmall : ¬ Nat.min a b - 0 > 2 := by
          rw [shr_one] at h0
          omega
        simp only [if_neg hsmall]
        rfl
    rw [this]
/-! ## Termination on any file with at least one record -/

/-- With a position inside a file of at most `2^63` records and a bound in the range of `size_t`,
`pos += tmp; ++pos` does not wrap, whatever was read. -/
theorem jump_no_wrap {len bound pos : Nat} (value : Nat) (hlen : 2 * len ≤ SIZE)
    (hb : bound < SIZE) (hpos : pos < len) :
    ∃ tmp, (if bound - value > 2 then (bound - value) >>> 1 else 0) = tmp ∧
      wrap ((if bound - value > 2 then wrap (pos + tmp) else pos) + 1) = pos + tmp + 1 := by
  by_cases hd : bound - value > 2
  · simp only [if_pos hd]
    have h2 := shr_one (bound - value)
    have h3 : pos + (bound - value) >>> 1 + 1 < SIZE := by
      unfold SIZE at *
      omega
    refine ⟨_, rfl, ?_⟩
    rw [wrap_of_lt (n := pos + _) (by omega), wrap_of_lt h3]
  · simp only [if_neg hd]
    refine ⟨0, rfl, ?_⟩
    exact wrap_of_lt (by unfold SIZE at *; omega)

theorem lower_loop_terminates {len min : Nat} (hlen : 2 * len ≤ SIZE) (hmin : min < SIZE) :
    ∀ k fuel pos value f, pos < len → len - pos ≤ k → k ≤ fuel →
      ∃ r, lower_loop min len fuel pos value f = some r := by
  intro k
  induction k with
  | zero => intro fuel pos value f h1 h2; omega
  | succ k ih =>
    intro fuel pos value f hpos hk hfuel
    obtain ⟨fuel, rfl⟩ : ∃ n, fuel = n + 1 := ⟨fuel - 1, by omega⟩
    have hl1 : usub len 1 = len - 1 := usub_of_le (by omega) (by unfold SIZE at *; omega)
    rw [lower_loop]
    by_cases hv : value ≤ min
    · rw [if_pos hv]
      obtain ⟨tmp, htmp, hp2⟩ := jump_no_wrap value hlen hmin hpos
      simp only [htmp, hp2, hl1]
      by_cases hoff : pos + tmp + 1 > len - 1
      · rw [if_pos hoff]; exact ⟨_, rfl⟩
      · rw [if_neg hoff]
        exact ih fuel _ _ _ (by omega) (by omega) (by omega)
    · rw [if_neg hv]; exact ⟨_, rfl⟩

theorem upper_loop_terminates {len max : Nat} (hlen : 2 * len ≤ SIZE) (hmax : max < SIZE)
    (pos_min : Nat) :
    ∀ k fuel pos value f, pos < len → len - pos ≤ k → k ≤ fuel →
      ∃ r, upper_loop max len pos_min fuel pos value f = some r := by
  intro k
  induction k with
  | zero => intro fuel pos value f h1 h2; omega
  | succ k ih =>
    intro fuel pos value f hpos hk hfuel
    obtain ⟨fuel, rfl⟩ : ∃ n, fuel = n + 1 := ⟨fuel - 1, by omega⟩
    have hl1 : usub len 1 = len - 1 := usub_of_le (by omega) (by unfold SIZE at *; omega)
    rw [upper_loop]
    by_cases hv : value < max
    · rw [if_pos hv]
      obtain ⟨tmp, htmp, hp2⟩ := jump_no_wrap value hlen hmax hpos
      simp only [htmp, hp2, hl1]
      by_cases hoff : pos + tmp + 1 > len - 1
      · rw [if_pos hoff]; exact ⟨_, rfl⟩
      · rw [if_neg hoff]
        exact ih fuel _ _ _ (by omega) (by omega) (by omega)
    · rw [if_neg hv]; exact ⟨_, rfl⟩

theorem more_effective_terminates (P : List Nat) (hne : 1 ≤ P.length)
    (hlen : 2 * P.length ≤ SIZE) (a b : Nat) (ha : a < SIZE) (hb : b < SIZE) (fuel : Nat)
    (hf : P.length ≤ fuel) : ∃ r, more_effective fuel (some P) a b = some r := by
  rw [more_effective_eq_searches]
  by_cases hab : a = b
  · rw [if_pos hab]; exact ⟨_, rfl⟩
  · rw [if_neg hab]
    have hl1 : usub P.length 1 = P.length - 1 :=
      usub_of_le (by omega) (by unfold SIZE at *; omega)
    have hmin : Nat.min a b < SIZE := Nat.lt_of_le_of_lt (Nat.min_le_left a b) ha
    have hmax : Nat.max a b < SIZE := by
      rcases Nat.le_total a b with h | h
      · rw [show Nat.max a b = b from Nat.max_eq_right h]; exact hb
      · rw [show Nat.max a b = a from Nat.max_eq_left h]; exact ha
    have hlow : ∃ r, lower_search (Nat.min a b) P fuel = some r := by
      unfold lower_search
      simp only [hl1]
      by_cases hg : Nat.min a b >>> 1 > P.length - 1
      · rw [if_pos hg]; exact ⟨_, rfl⟩
      · rw [if_neg hg]
        exact lower_loop_terminates hlen hmin P.length fuel _ _ _ (by omega) (by omega) hf
    obtain ⟨r, hr⟩ := hlow
    rw [hr]
    cases r with
    | returned n => exact ⟨_, rfl⟩
    | exited pos_min value f =>
      have hup : ∃ r, upper_search (Nat.max a b) P.length pos_min fuel value f = some r := by
        unfold upper_search
        simp only [hl1]
        by_cases hg : Nat.max a b >>> 1 > P.length - 1
        · rw [if_pos hg]; exact ⟨_, rfl⟩
        · rw [if_neg hg]
          exact upper_loop_terminates hlen hmax pos_min P.length fuel _ _ _ (by omega) (by omega) hf
      obtain ⟨r2, hr2⟩ := hup
      simp only [hr2]
      cases r2 with
      | returned n => exact ⟨_, rfl⟩
      | exited pos_max v2 f2 => exact ⟨_, rfl⟩
/-! ## Counts in a step-bounded file -/

theorem countP_eq_of_split (p : Nat → Bool) (P : List Nat) (k : Nat) (hk : k ≤ P.length)
    (hlo : ∀ i < k, p (P.getD i 0) = true)
    (hhi : ∀ i, k ≤ i → i < P.length → p (P.getD i 0) = false) : P.countP p = k := by
  rw [countP_split p P k, countP_take_of_all p P k hk hlo, countP_drop_of_none p P k hhi]
  rfl

/-- In a step-bounded file a property that passes from a value to all smaller ones holds exactly
at the indices below the number of records having it. -/
theorem StepBounded.countP_spec {P : List Nat} (hsb : StepBounded P) (p : Nat → Bool)
    (hp : ∀ x y, x ≤ y → p y = true → p x = true) :
    P.countP p ≤ P.length ∧ (∀ i < P.countP p, p (P.getD i 0) = true) ∧
      ∀ i, P.countP p ≤ i → i < P.length → p (P.getD i 0) = false := by
  classical
  have hex : ∃ k, k = P.length ∨ p (P.getD k 0) = false := ⟨P.length, Or.inl rfl⟩
  have hk := Nat.find_spec hex
  have hkle : Nat.find hex ≤ P.length := Nat.find_min' hex (Or.inl rfl)
  have hlo : ∀ i < Nat.find hex, p (P.getD i 0) = true := by
    intro i hi
    have := Nat.find_min hex hi
    simp only [not_or] at this
    simpa using this.2
  have hhi : ∀ i, Nat.find hex ≤ i → i < P.length → p (P.getD i 0) = false := by
    intro i h1 h2
    rcases hk with h | h
    · omega
    · by_contra hc
      have ht : p (P.getD i 0) = true := by simpa using hc
      have := hp _ _ (hsb.mono h1 h2) ht
      rw [h] at this
      exact Bool.false_ne_true this
  have hc := countP_eq_of_split p P _ hkle hlo hhi
  rw [hc]
  exact ⟨hkle, hlo, hhi⟩

theorem StepBounded.count_le_spec {P : List Nat} (hsb : StepBounded P) (m : Nat) :
    (∀ i < count_le P m, P.getD i 0 ≤ m) ∧
      ∀ i, count_le P m ≤ i → i < P.length → m < P.getD i 0 := by
  obtain ⟨-, h1, h2⟩ := hsb.countP_spec (fun v => decide (v ≤ m)) (by
    intro x y hxy hy
    simp only [decide_eq_true_eq] at hy ⊢
    omega)
  refine ⟨fun i hi => by simpa using h1 i hi, fun i hi1 hi2 => ?_⟩
  have := h2 i hi1 hi2
  simp only [decide_eq_false_iff_not] at this
  omega

theorem StepBounded.count_lt_spec {P : List Nat} (hsb : StepBounded P) (m : Nat) :
    (∀ i < count_lt P m, P.getD i 0 < m) ∧
      ∀ i, count_lt P m ≤ i → i < P.length → m ≤ P.getD i 0 := by
  obtain ⟨-, h1, h2⟩ := hsb.countP_spec (fun v => decide (v < m)) (by
    intro x y hxy hy
    simp only [decide_eq_true_eq] at hy ⊢
    omega)
  refine ⟨fun i hi => by simpa using h1 i hi, fun i hi1 hi2 => ?_⟩
  have := h2 i hi1 hi2
  simp only [decide_eq_false_iff_not] at this
  omega

theorem getD_mem (P : List Nat) {i : Nat} (hi : i < P.length) : P.getD i 0 ∈ P := by
  rw [List.getD_eq_getElem P 0 hi]
  exact List.getElem_mem hi

theorem mem_getD (P : List Nat) {v : Nat} (hv : v ∈ P) : ∃ i, i < P.length ∧ P.getD i 0 = v := by
  obtain ⟨i, hi, rfl⟩ := List.mem_iff_getElem.1 hv
  exact ⟨i, hi, List.getD_eq_getElem P 0 hi⟩

/-- A step-bounded file holds a value at most once. -/
theorem StepBounded.count_le_le_succ {P : List Nat} (hsb : StepBounded P) (M : Nat) :
    count_le P M ≤ count_lt P M + 1 ∧ (M ∉ P → count_le P M = count_lt P M) := by
  have hle := hsb.count_le_spec M
  have hlt := hsb.count_lt_spec M
  have hlen := count_le_le_length P M
  have hord := count_lt_le_count_le P M
  constructor
  · by_contra hc
    have h1 := hle.1 (count_lt P M) (by omega)
    have h2 := hle.1 (count_lt P M + 1) (by omega)
    have h3 := hlt.2 (count_lt P M) (Nat.le_refl _) (by omega)
    have h4 := hsb.strict_mono (show count_lt P M < count_lt P M + 1 from by omega) (by omega)
    omega
  · intro hM
    by_contra hc
    have h1 := hle.1 (count_lt P M) (by omega)
    have h3 := hlt.2 (count_lt P M) (Nat.le_refl _) (by omega)
    have : P.getD (count_lt P M) 0 = M := by omega
    exact hM (this ▸ getD_mem P (by omega))

/-- The records `< M` are the records `≤ m` and the records strictly between `m` and `M`. -/
theorem count_lt_eq_add (P : List Nat) {m M : Nat} (h : m < M) :
    count_lt P M = count_le P m + count_between P m M := by
  unfold count_lt count_le count_between
  induction P with
  | nil => rfl
  | cons x xs ih =>
    simp only [List.countP_cons, ih, decide_eq_true_eq]
    split_ifs <;> omega
/-! ## Consistency of counter, cursor and value -/

/-- One iteration of the lower loop from a consistent state: it returns 0 when the new position
is past `length - 1`, and otherwise goes on in the consistent state at the new position. -/
theorem lower_loop_step (P : List Nat) (hlen : 2 * P.length ≤ SIZE) {min : Nat}
    (hmin : min < SIZE) {pos value : Nat} {f : FILE} (hc : Consistent P pos value f)
    (hv : value ≤ min) (tmp : Nat)
    (htmp : tmp = if min - value > 2 then (min - value) >>> 1 else 0) :
    (pos + tmp + 1 > P.length - 1 →
      ∀ fuel, lower_loop min P.length (fuel + 1) pos value f = some (Outcome.returned 0)) ∧
    (pos + tmp + 1 ≤ P.length - 1 →
      Consistent P (pos + tmp + 1) (P.getD (pos + tmp + 1) 0) ⟨P, pos + tmp + 1 + 1⟩ ∧
      ∀ fuel, lower_loop min P.length (fuel + 1) pos value f =
        lower_loop min P.length fuel (pos + tmp + 1) (P.getD (pos + tmp + 1) 0)
          ⟨P, pos + tmp + 1 + 1⟩) := by
  obtain ⟨rfl, hpos, -⟩ := hc
  have hl1 : usub P.length 1 = P.length - 1 :=
    usub_of_le (by omega) (by unfold SIZE at *; omega)
  obtain ⟨t, ht, hp2⟩ := jump_no_wrap value hlen hmin hpos
  rw [← htmp] at ht
  subst ht
  constructor
  · intro hoff fuel
    rw [lower_loop, if_pos hv]
    simp only [← htmp, hp2, hl1]
    rw [if_pos hoff]
  · intro hin
    have hin2 : pos + tmp + 1 < P.length := by omega
    refine ⟨⟨rfl, hin2, rfl⟩, fun fuel => ?_⟩
    rw [lower_loop, if_pos hv]
    simp only [← htmp, hp2, hl1]
    rw [if_neg (by omega)]
    have hf : fseek_cur ⟨P, pos + 1⟩ tmp = ⟨P, pos + tmp + 1⟩ := by
      simp [fseek_cur]; omega
    rw [hf, fread_inside P _ _ hin2]

/-- One iteration of the upper loop from a consistent state. -/
theorem upper_loop_step (P : List Nat) (hlen : 2 * P.length ≤ SIZE) {max : Nat}
    (hmax : max < SIZE) (pos_min : Nat) {pos value : Nat} {f : FILE}
    (hc : Consistent P pos value f) (hv : value < max) (tmp : Nat)
    (htmp : tmp = if max - value > 2 then (max - value) >>> 1 else 0) :
    (pos + tmp + 1 > P.length - 1 →
      ∀ fuel, upper_loop max P.length pos_min (fuel + 1) pos value f =
        some (Outcome.returned (usub P.length pos_min))) ∧
    (pos + tmp + 1 ≤ P.length - 1 →
      Consistent P (pos + tmp + 1) (P.getD (pos + tmp + 1) 0) ⟨P, pos + tmp + 1 + 1⟩ ∧
      ∀ fuel, upper_loop max P.length pos_min (fuel + 1) pos value f =
        upper_loop max P.length pos_min fuel (pos + tmp + 1) (P.getD (pos + tmp + 1) 0)
          ⟨P, pos + tmp + 1 + 1⟩) := by
  obtain ⟨rfl, hpos, -⟩ := hc
  have hl1 : usub P.length 1 = P.length - 1 :=
    usub_of_le (by omega) (by unfold SIZE at *; omega)
  obtain ⟨t, ht, hp2⟩ := jump_no_wrap value hlen hmax hpos
  rw [← htmp] at ht
  subst ht
  constructor
  · intro hoff fuel
    rw [upper_loop, if_pos hv]
    simp only [← htmp, hp2, hl1]
    rw [if_pos hoff]
  · intro hin
    have hin2 : pos + tmp + 1 < P.length := by omega
    refine ⟨⟨rfl, hin2, rfl⟩, fun fuel => ?_⟩
    rw [upper_loop, if_pos hv]
    simp only [← htmp, hp2, hl1]
    rw [if_neg (by omega)]
    have hf : fseek_cur ⟨P, pos + 1⟩ tmp = ⟨P, pos + tmp + 1⟩ := by
      simp [fseek_cur]; omega
    rw [hf, fread_inside P _ _ hin2]

theorem two_le_log {n : Nat} (h : 4 ≤ n) : 2 ≤ Nat.log 2 n :=
  Nat.le_log_of_pow_le (by omega) (by omega)

theorem read_bound_le_log (d : Nat) : read_bound d ≤ Nat.log 2 (d + 1) + 3 := by
  unfold read_bound
  split
  · rename_i h
    rcases Nat.lt_or_ge d 1 with h0 | h1
    · omega
    · have : 1 ≤ Nat.log 2 (d + 1) := Nat.le_log_of_pow_le (by omega) (by omega)
      omega
  · omega

theorem two_le_read_bound (d : Nat) : 2 ≤ read_bound d := by
  unfold read_bound
  split <;> omega

/-- After a round that leaves the gap `e ≤ d - tmp - 1`, one round less is enough. -/
theorem read_bound_next {d e tmp : Nat} (htmp : tmp = if d > 2 then d >>> 1 else 0)
    (hd : 1 ≤ d) (he : e + tmp + 1 ≤ d) : read_bound e + 1 ≤ read_bound d := by
  by_cases h : d > 2
  · rw [if_pos h, shr_one] at htmp
    have hlog : Nat.log 2 ((d + 1) / 2) = Nat.log 2 (d + 1) - 1 := Nat.log_div_base 2 (d + 1)
    have h2 := two_le_log (n := d + 1) (by omega)
    have hmono : Nat.log 2 (e + 1) ≤ Nat.log 2 ((d + 1) / 2) :=
      Nat.log_mono_right (by omega)
    unfold read_bound
    rw [if_neg (show ¬ d ≤ 2 from by omega)]
    split <;> omega
  · rw [if_neg h] at htmp
    unfold read_bound
    rw [if_pos (show e ≤ 2 from by omega), if_pos (show d ≤ 2 from by omega)]
    omega

/-- The record read after the jump is at least `tmp + 1` above the one before. -/
theorem StepBounded.after_jump {P : List Nat} (hsb : StepBounded P) {pos tmp : Nat}
    (hin : pos + tmp + 1 ≤ P.length - 1) :
    P.getD pos 0 + tmp + 1 ≤ P.getD (pos + tmp + 1) 0 := by
  have := hsb.advance pos (tmp + 1) (by have := hsb.1; omega)
  have e : pos + (tmp + 1) = pos + tmp + 1 := rfl
  rw [e] at this
  omega

theorem lower_loop_log {P : List Nat} (hsb : StepBounded P) (hlen : 2 * P.length ≤ SIZE)
    {min : Nat} (hmin : min < SIZE) :
    ∀ d pos, pos < P.length → P.getD pos 0 ≤ min → min - P.getD pos 0 = d →
      ∀ fuel, read_bound d ≤ fuel →
        ∃ r, lower_loop min P.length fuel pos (P.getD pos 0) ⟨P, pos + 1⟩ = some r := by
  intro d
  induction d using Nat.strong_induction_on with
  | _ d ih =>
    intro pos hpos hv hd fuel hfuel
    subst hd
    have h2 := two_le_read_bound (min - P.getD pos 0)
    obtain ⟨fuel, rfl⟩ : ∃ n, fuel = n + 1 := ⟨fuel - 1, by omega⟩
    obtain ⟨h1, h3⟩ := lower_loop_step P hlen hmin ⟨rfl, hpos, rfl⟩ hv _ rfl
    by_cases hoff : pos + (if min - P.getD pos 0 > 2 then (min - P.getD pos 0) >>> 1 else 0) + 1
        > P.length - 1
    · exact ⟨_, h1 hoff fuel⟩
    · obtain ⟨hc2, heq⟩ := h3 (by omega)
      rw [heq fuel]
      have hjump := hsb.after_jump (Nat.le_of_not_gt hoff)
      by_cases hv2 : P.getD (pos + (if min - P.getD pos 0 > 2 then
          (min - P.getD pos 0) >>> 1 else 0) + 1) 0 ≤ min
      · refine ih _ (by omega) _ hc2.2.1 hv2 rfl fuel ?_
        have := read_bound_next (d := min - P.getD pos 0) rfl (by omega)
          (show (min - P.getD (pos + (if min - P.getD pos 0 > 2 then
            (min - P.getD pos 0) >>> 1 else 0) + 1) 0) + _ + 1 ≤ min - P.getD pos 0 from by omega)
        omega
      · obtain ⟨fuel, rfl⟩ : ∃ n, fuel = n + 1 := ⟨fuel - 1, by omega⟩
        rw [lower_loop, if_neg hv2]
        exact ⟨_, rfl⟩

theorem upper_loop_log {P : List Nat} (hsb : StepBounded P) (hlen : 2 * P.length ≤ SIZE)
    {max : Nat} (hmax : max < SIZE) (pos_min : Nat) :
    ∀ d pos, pos < P.length → P.getD pos 0 < max → max - P.getD pos 0 = d →
      ∀ fuel, read_bound d ≤ fuel →
        ∃ r, upper_loop max P.length pos_min fuel pos (P.getD pos 0) ⟨P, pos + 1⟩ = some r := by
  intro d
  induction d using Nat.strong_induction_on with
  | _ d ih =>
    intro pos hpos hv hd fuel hfuel
    subst hd
    have h2 := two_le_read_bound (max - P.getD pos 0)
    obtain ⟨fuel, rfl⟩ : ∃ n, fuel = n + 1 := ⟨fuel - 1, by omega⟩
    obtain ⟨h1, h3⟩ := upper_loop_step P hlen hmax pos_min ⟨rfl, hpos, rfl⟩ hv _ rfl
    by_cases hoff : pos + (if max - P.getD pos 0 > 2 then (max - P.getD pos 0) >>> 1 else 0) + 1
        > P.length - 1
    · exact ⟨_, h1 hoff fuel⟩
    · obtain ⟨hc2, heq⟩ := h3 (by omega)
      rw [heq fuel]
      have hjump := hsb.after_jump (Nat.le_of_not_gt hoff)
      by_cases hv2 : P.getD (pos + (if max - P.getD pos 0 > 2 then
          (max - P.getD pos 0) >>> 1 else 0) + 1) 0 < max
      · refine ih _ (by omega) _ hc2.2.1 hv2 rfl fuel ?_
        have := read_bound_next (d := max - P.getD pos 0) rfl (by omega)
          (show (max - P.getD (pos + (if max - P.getD pos 0 > 2 then
            (max - P.getD pos 0) >>> 1 else 0) + 1) 0) + _ + 1 ≤ max - P.getD pos 0 from by omega)
        omega
      · obtain ⟨fuel, rfl⟩ : ∃ n, fuel = n + 1 := ⟨fuel - 1, by omega⟩
        rw [upper_loop, if_neg hv2]
        exact ⟨_, rfl⟩

/-! ## The two resolutions on a step-bounded file -/

theorem lower_search_spec {P : List Nat} (hsb : StepBounded P) (hlen : P.length < SIZE)
    {min : Nat} (hmin : min < SIZE) (fuel : Nat) (hf : P.length ≤ fuel) :
    lower_search min P fuel =
      some (if count_le P min < P.length then
          Outcome.exited (count_le P min) (P.getD (count_le P min) 0) ⟨P, count_le P min + 1⟩
        else Outcome.returned 0) := by
  have hpos := hsb.1
  have hl1 : usub P.length 1 = P.length - 1 := usub_of_le (by omega) hlen
  unfold lower_search
  simp only []
  by_cases hg : min >>> 1 > usub P.length 1
  · rw [if_pos hg]
    rw [hl1, shr_one] at hg
    have hc : count_le P min = P.length := by
      apply count_le_eq P min P.length (Nat.le_refl _)
      · intro i hi; exact Nat.le_of_lt (hsb.below_seed hg i hi)
      · intro i h1 h2; omega
    rw [hc, if_neg (Nat.lt_irrefl _)]
  · rw [if_neg hg]
    rw [hl1, shr_one] at hg
    have hin : min >>> 1 < P.length := by rw [shr_one]; omega
    have hs : fseek_set ⟨P, P.length⟩ (min >>> 1) = ⟨P, min >>> 1⟩ := rfl
    rw [hs, fread_inside P _ _ hin]
    exact lower_loop_spec hsb hlen hmin P.length (min >>> 1) (by omega) hin
      (fun i hi => by
        rw [shr_one] at hi
        have := hsb.index_bounds i (by omega); omega) fuel hf

theorem upper_search_spec {P : List Nat} (hsb : StepBounded P) (hlen : P.length < SIZE)
    {max : Nat} (hmax : max < SIZE) :
    ∃ U, U ≤ P.length ∧ (∀ i < U, P.getD i 0 ≤ max) ∧ (U < P.length → max ≤ P.getD U 0) ∧
      ∀ fuel pos_min c v, P.length ≤ fuel →
        upper_search max P.length pos_min fuel v ⟨P, c⟩ =
          some (if U < P.length then Outcome.exited U (P.getD U 0) ⟨P, U + 1⟩
            else Outcome.returned (usub P.length pos_min)) := by
  have hpos := hsb.1
  have hl1 : usub P.length 1 = P.length - 1 := usub_of_le (by omega) hlen
  by_cases hg : max >>> 1 > usub P.length 1
  · refine ⟨P.length, Nat.le_refl _, ?_, fun h => absurd h (Nat.lt_irrefl _), ?_⟩
    · rw [hl1, shr_one] at hg
      intro i hi; exact Nat.le_of_lt (hsb.below_seed hg i hi)
    · intro fuel pos_min c v _
      unfold upper_search
      simp only []
      rw [if_pos hg, if_neg (Nat.lt_irrefl _)]
  · have hg2 := hg
    rw [hl1, shr_one] at hg2
    have hin : max >>> 1 < P.length := by rw [shr_one]; omega
    obtain ⟨U, h1, h2, h3, h4⟩ := upper_loop_spec hsb hlen hmax P.length (max >>> 1)
      (by omega) hin (fun i hi => by
        rw [shr_one] at hi
        have := hsb.index_bounds i (by omega); omega)
    refine ⟨U, h1, h2, h3, ?_⟩
    intro fuel pos_min c v hf
    unfold upper_search
    simp only []
    rw [if_neg hg]
    have hs : fseek_set ⟨P, c⟩ (max >>> 1) = ⟨P, max >>> 1⟩ := rfl
    rw [hs, fread_inside P _ _ hin]
    exact h4 fuel pos_min hf

/-! ## The log of reads -/

/-- Dropping the log from the traced lower loop gives the lower loop. -/
theorem lower_loop_traced_fst (min length : Nat) :
    ∀ fuel pos value f,
      (lower_loop_traced min length fuel pos value f).1 = lower_loop min length fuel pos value f := by
  intro fuel
  induction fuel with
  | zero => intro pos value f; rfl
  | succ fuel ih =>
    intro pos value f
    rw [lower_loop_traced, lower_loop]
    split_ifs <;> simp only [] <;> split_ifs <;> first | rfl | exact ih _ _ _

/-- Dropping the log from the traced upper loop gives the upper loop. -/
theorem upper_loop_traced_fst (max length pos_min : Nat) :
    ∀ fuel pos value f,
      (upper_loop_traced max length pos_min fuel pos value f).1 =
        upper_loop max length pos_min fuel pos value f := by
  intro fuel
  induction fuel with
  | zero => intro pos value f; rfl
  | succ fuel ih =>
    intro pos value f
    rw [upper_loop_traced, upper_loop]
    split_ifs <;> simp only [] <;> split_ifs <;> first | rfl | exact ih _ _ _

/-- Dropping the log from the traced function gives `more_effective`. -/
theorem more_effective_traced_fst (fuel : Nat) (file : Option (List Nat)) (a b : Nat) :
    (more_effective_traced fuel file a b).1 = more_effective fuel file a b := by
  unfold more_effective_traced more_effective
  by_cases hab : a = b
  · rw [if_pos hab, if_pos hab]
  · rw [if_neg hab, if_neg hab]
    cases file with
    | none => rfl
    | some data =>
      simp only []
      by_cases hg : Nat.min a b >>> 1 > usub data.length 1
      · rw [if_pos hg, if_pos hg]
      · rw [if_neg hg, if_neg hg, lower_loop_traced_fst]
        cases hl : lower_loop (Nat.min a b) data.length fuel (Nat.min a b >>> 1)
            (fread (fseek_set ⟨data, data.length⟩ (Nat.min a b >>> 1)) 0).1
            (fread (fseek_set ⟨data, data.length⟩ (Nat.min a b >>> 1)) 0).2 with
        | none => rfl
        | some o =>
          cases o with
          | returned n => rfl
          | exited pos_min value f2 =>
            simp only []
            by_cases hg2 : Nat.max a b >>> 1 > usub data.length 1
            · rw [if_pos hg2, if_pos hg2]
            · rw [if_neg hg2, if_neg hg2, upper_loop_traced_fst]
              cases hu : upper_loop (Nat.max a b) data.length pos_min fuel (Nat.max a b >>> 1)
                  (fread (fseek_set f2 (Nat.max a b >>> 1)) value).1
                  (fread (fseek_set f2 (Nat.max a b >>> 1)) value).2 with
              | none => rfl
              | some o2 =>
                cases o2 with
                | returned n => rfl
                | exited pos_max v3 f3 => rfl
/-! ## The claims on the two resolutions, termination and the special files -/

/-- C11 (open failure): when the file cannot be opened, `more_effective` returns 0 for all bounds
and every fuel, and `simple` returns 0; the result is an ordinary count, the same value that an
openable file gives for an empty interval. -/
theorem open_failure_returns_zero (fuel a b : Nat) :
    more_effective fuel none a b = some 0 ∧ simple none a b = 0 ∧
      (∀ P, more_effective fuel none a b = more_effective fuel (some P) a a) ∧
      ∀ P, simple none a b = simple (some P) a a := by
  have h1 : more_effective fuel none a b = some 0 := by
    unfold more_effective
    split <;> rfl
  refine ⟨h1, rfl, fun P => ?_, fun P => ?_⟩
  · rw [h1]; simp [more_effective]
  · rw [simple_eq_count]
    exact (count_between_self P _ _ (by
      show max a a ≤ min a a
      simp)).symm

/-- C12 (lower-bound resolution): on a step-bounded file whose length fits `size_t`, for `min` in
the range of `size_t` and fuel at least the length, the lower-bound resolution ends; when it ends
inside the file, `pos_min` is the smallest index whose record is `> min`, which is the number of
records `≤ min`; and it takes a `return 0` exit exactly when every record is `≤ min`. -/
theorem lower_bound_resolution (P : List Nat) (hsb : StepBounded P) (hlen : P.length < SIZE)
    (min : Nat) (hmin : min < SIZE) (fuel : Nat) (hf : P.length ≤ fuel) :
    ∃ o, lower_search min P fuel = some o ∧
      (∀ pos v f, o = Outcome.exited pos v f →
        pos < P.length ∧ min < P.getD pos 0 ∧ (∀ i < pos, P.getD i 0 ≤ min) ∧
          pos = count_le P min) ∧
      ((∃ n, o = Outcome.returned n) ↔ ∀ v ∈ P, v ≤ min) ∧
      ∀ n, o = Outcome.returned n → n = 0 := by
  have hspec := hsb.count_le_spec min
  have hle := count_le_le_length P min
  refine ⟨_, lower_search_spec hsb hlen hmin fuel hf, ?_, ?_, ?_⟩
  · intro pos v f ho
    by_cases hL : count_le P min < P.length
    · rw [if_pos hL] at ho
      simp only [Outcome.exited.injEq] at ho
      obtain ⟨rfl, -, -⟩ := ho
      exact ⟨hL, hspec.2 _ (Nat.le_refl _) hL, hspec.1, rfl⟩
    · rw [if_neg hL] at ho
      simp at ho
  · by_cases hL : count_le P min < P.length
    · rw [if_pos hL]
      constructor
      · rintro ⟨n, hn⟩
        simp at hn
      · intro hall
        have := hspec.2 _ (Nat.le_refl _) hL
        have := hall _ (getD_mem P hL)
        omega
    · rw [if_neg hL]
      constructor
      · intro _ v hv
        obtain ⟨i, hi, rfl⟩ := mem_getD P hv
        exact hspec.1 i (by omega)
      · intro _
        exact ⟨0, rfl⟩
  · intro n ho
    by_cases hL : count_le P min < P.length
    · rw [if_pos hL] at ho
      simp at ho
    · rw [if_neg hL] at ho
      simp only [Outcome.returned.injEq] at ho
      exact ho.symm

/-- Witness of C12: the test sequence with `min = 3`. -/
theorem lower_bound_resolution_witness :
    StepBounded test_sequence ∧ test_sequence.length < SIZE ∧ 3 < SIZE ∧
      test_sequence.length ≤ 10 ∧
      ∃ o, lower_search 3 test_sequence 10 = some o ∧
        (∀ pos v f, o = Outcome.exited pos v f →
          pos < test_sequence.length ∧ 3 < test_sequence.getD pos 0 ∧
            (∀ i < pos, test_sequence.getD i 0 ≤ 3) ∧ pos = count_le test_sequence 3) ∧
        ((∃ n, o = Outcome.returned n) ↔ ∀ v ∈ test_sequence, v ≤ 3) ∧
        ∀ n, o = Outcome.returned n → n = 0 :=
  ⟨by decide, by decide, by decide, by decide,
    lower_bound_resolution test_sequence (by decide) (by decide) 3 (by decide) 10 (by decide)⟩

/-- C13 (upper-bound resolution) does not hold for the code: on the step-bounded file
`0 1 2 3 5 7 8` with the bounds `(0, 7)` the lower-bound resolution ends with `pos_min = 1`, and
the loop `while (value < max)` exits normally with `pos_max = 6`, although record 5 is `7 = max`:
the smallest index whose record is `≥ max`, and the number of records `< max`, is 5. So
`more_effective` returns 5 where 4 records lie strictly between 0 and 7. -/
theorem upper_exit_past_max :
    StepBounded [0, 1, 2, 3, 5, 7, 8] ∧
      (∀ fuel, lower_search 0 [0, 1, 2, 3, 5, 7, 8] (fuel + 2) =
        some (Outcome.exited 1 1 ⟨[0, 1, 2, 3, 5, 7, 8], 2⟩)) ∧
      (∀ fuel, upper_search 7 7 1 (fuel + 2) 1 ⟨[0, 1, 2, 3, 5, 7, 8], 2⟩ =
        some (Outcome.exited 6 8 ⟨[0, 1, 2, 3, 5, 7, 8], 7⟩)) ∧
      [0, 1, 2, 3, 5, 7, 8].getD 5 0 = 7 ∧ count_lt [0, 1, 2, 3, 5, 7, 8] 7 = 5 ∧
      (∀ fuel, more_effective (fuel + 2) (some [0, 1, 2, 3, 5, 7, 8]) 0 7 = some 5) ∧
      simple (some [0, 1, 2, 3, 5, 7, 8]) 0 7 = 4 :=
  ⟨by decide, fun _ => rfl, fun _ => rfl, by decide, by decide, fun _ => rfl, by decide⟩

/-- C14 (upper run-off exit inside the loop) does not hold for the code: on the step-bounded file
`0 1 2 3 5 7` with the bounds `(0, 7)` the seed check of the upper-bound resolution passes
(`3 ≤ length - 1`), the first round of the loop `while (value < max)` moves `pos_max` from 3 to 6,
past `length - 1 = 5`, and returns `length - pos_min = 5`, although the record `7 = max` is stored:
only 4 records lie strictly between 0 and 7. -/
theorem upper_run_off_with_max_stored :
    StepBounded [0, 1, 2, 3, 5, 7] ∧
      (∀ fuel, lower_search 0 [0, 1, 2, 3, 5, 7] (fuel + 2) =
        some (Outcome.exited 1 1 ⟨[0, 1, 2, 3, 5, 7], 2⟩)) ∧
      ¬ (7 >>> 1 > usub [0, 1, 2, 3, 5, 7].length 1) ∧
      fread (fseek_set ⟨[0, 1, 2, 3, 5, 7], 2⟩ (7 >>> 1)) 1 = (3, ⟨[0, 1, 2, 3, 5, 7], 4⟩) ∧
      (∀ fuel, upper_loop 7 6 1 (fuel + 1) 3 3 ⟨[0, 1, 2, 3, 5, 7], 4⟩ =
        some (Outcome.returned 5)) ∧
      7 ∈ [0, 1, 2, 3, 5, 7] ∧ count_between [0, 1, 2, 3, 5, 7] 0 7 = 4 :=
  ⟨by decide, fun _ => rfl, by decide, by decide, fun _ => rfl, by decide, by decide⟩

/-- On the one-record file the lower loop, entered after the seed read at index 0, makes no read:
once it may run at all it returns 0 in its first round, at the check before the seek. -/
theorem lower_loop_traced_single {min : Nat} (h0 : min >>> 1 = 0) :
    ∀ fuel, lower_loop_traced min [0].length fuel 0 0 ⟨[0], 1⟩ =
      (if fuel = 0 then none else some (Outcome.returned 0), []) := by
  intro fuel
  cases fuel with
  | zero => rfl
  | succ fuel =>
    rw [lower_loop_traced, if_pos (Nat.zero_le _)]
    have hsmall : ¬ min - 0 > 2 := by
      rw [shr_one] at h0
      omega
    simp only [if_neg hsmall]
    rfl

/-- Every read of `more_effective` on the one-record file is at index 0. -/
theorem reads_single (fuel a b : Nat) :
    (more_effective_traced fuel (some [0]) a b).2 = [] ∨
      (more_effective_traced fuel (some [0]) a b).2 = [0] := by
  unfold more_effective_traced
  by_cases hab : a = b
  · rw [if_pos hab]; exact Or.inl rfl
  · rw [if_neg hab]
    simp only []
    by_cases hg : Nat.min a b >>> 1 > usub [0].length 1
    · rw [if_pos hg]; exact Or.inl rfl
    · rw [if_neg hg]
      have h0 : Nat.min a b >>> 1 = 0 := by
        have : usub [0].length 1 = 0 := by decide
        omega
      rw [h0]
      have hr : fread (fseek_set ⟨[0], [0].length⟩ 0) 0 = (0, ⟨[0], 1⟩) := rfl
      rw [hr, lower_loop_traced_single h0]
      right
      cases fuel with
      | zero => rfl
      | succ n => rfl

/-- C18 (single-record file): on the file holding only the record 0, for all bounds and as soon
as each loop may run once, `more_effective` returns 0, which is the number of records strictly
between the bounds and the result of `simple`; and whatever the fuel, every `fread` it calls is
at record index 0 and there is at most one: the log of its reads is empty (return at the seed
check) or holds the one index 0 (the seed read), the loop returning in its first round before
its seek and read. -/
theorem single_record_file (fuel a b : Nat) :
    more_effective (fuel + 1) (some [0]) a b = some 0 ∧
      count_between [0] (Nat.min a b) (Nat.max a b) = 0 ∧ simple (some [0]) a b = 0 ∧
      (more_effective_traced (fuel + 1) (some [0]) a b).1 = some 0 ∧
      (∀ n, ∀ i ∈ (more_effective_traced n (some [0]) a b).2, i = 0) ∧
      (∀ n, (more_effective_traced n (some [0]) a b).2 = [] ∨
        (more_effective_traced n (some [0]) a b).2 = [0]) := by
  have hc : count_between [0] (Nat.min a b) (Nat.max a b) = 0 := by
    simp [count_between]
  refine ⟨more_effective_single fuel a b, hc, by rw [simple_eq_count]; exact hc, ?_, ?_,
    fun n => reads_single n a b⟩
  · rw [more_effective_traced_fst]
    exact more_effective_single fuel a b
  · intro n i hi
    rcases reads_single n a b with h | h
    · rw [h] at hi
      simp at hi
    · rw [h] at hi
      simpa using hi

/-- C20 (empty file): on the zero-length file `length - 1` wraps to `2^64 - 1`, and for all
distinct bounds whose minimum is in the range of `size_t` (for instance 0 and 1)
`more_effective` does not return, whatever the fuel, whereas `simple` returns 0. -/
theorem empty_file_never_returns (fuel a b : Nat) (hab : a ≠ b) (hmin : Nat.min a b < SIZE) :
    usub ([] : List Nat).length 1 = 18446744073709551615 ∧
      more_effective fuel (some []) a b = none ∧ simple (some []) a b = 0 :=
  ⟨by decide, more_effective_empty fuel a b hab hmin, by rw [simple_eq_count]; rfl⟩

/-- Witness of C20: the bounds 0 and 1. -/
theorem empty_file_never_returns_witness :
    0 ≠ 1 ∧ Nat.min 0 1 < SIZE ∧
      (usub ([] : List Nat).length 1 = 18446744073709551615 ∧
        more_effective 1000 (some []) 0 1 = none ∧ simple (some []) 0 1 = 0) :=
  ⟨by decide, by decide, empty_file_never_returns 1000 0 1 (by decide) (by decide)⟩

/-- C16 (termination): on every file with at least one and at most `2^63` records (so that no
position overflows), whatever the records, and for all bounds in the range of `size_t`, each loop
started at a position inside the file ends within `length - pos` rounds, and `more_effective`
returns as soon as each loop may run `length` times. -/
theorem more_effective_always_returns (P : List Nat) (hne : 1 ≤ P.length)
    (hlen : 2 * P.length ≤ SIZE) (a b : Nat) (ha : a < SIZE) (hb : b < SIZE) :
    (∀ pos value f, pos < P.length →
      ∃ r, lower_loop (Nat.min a b) P.length (P.length - pos) pos value f = some r) ∧
    (∀ pos_min pos value f, pos < P.length →
      ∃ r, upper_loop (Nat.max a b) P.length pos_min (P.length - pos) pos value f = some r) ∧
    ∀ fuel, P.length ≤ fuel → ∃ r, more_effective fuel (some P) a b = some r := by
  have hmin : Nat.min a b < SIZE := Nat.lt_of_le_of_lt (Nat.min_le_left a b) ha
  have hmax : Nat.max a b < SIZE := by
    rcases Nat.le_total a b with h | h
    · rw [show Nat.max a b = b from Nat.max_eq_right h]; exact hb
    · rw [show Nat.max a b = a from Nat.max_eq_left h]; exact ha
  refine ⟨fun pos value f hpos => ?_, fun pos_min pos value f hpos => ?_, fun fuel hf => ?_⟩
  · exact lower_loop_terminates hlen hmin _ _ pos value f hpos (Nat.le_refl _) (Nat.le_refl _)
  · exact upper_loop_terminates hlen hmax pos_min _ _ pos value f hpos (Nat.le_refl _)
      (Nat.le_refl _)
  · exact more_effective_terminates P hne hlen a b ha hb fuel hf

/-- Witness of C16: a file of three records that is not step-bounded. -/
theorem more_effective_always_returns_witness :
    1 ≤ [5, 0, 9].length ∧ 2 * [5, 0, 9].length ≤ SIZE ∧ 4 < SIZE ∧ 7 < SIZE ∧
    ((∀ pos value f, pos < [5, 0, 9].length →
      ∃ r, lower_loop (Nat.min 4 7) [5, 0, 9].length ([5, 0, 9].length - pos) pos value f
        = some r) ∧
    (∀ pos_min pos value f, pos < [5, 0, 9].length →
      ∃ r, upper_loop (Nat.max 4 7) [5, 0, 9].length pos_min ([5, 0, 9].length - pos) pos value f
        = some r) ∧
    ∀ fuel, [5, 0, 9].length ≤ fuel → ∃ r, more_effective fuel (some [5, 0, 9]) 4 7 = some r) :=
  ⟨by decide, by decide, by decide, by decide,
    more_effective_always_returns [5, 0, 9] (by decide) (by decide) 4 7 (by decide) (by decide)⟩

/-- C19 (bounded over-count): on a step-bounded file whose length fits `size_t`, for bounds in the
range of `size_t` and fuel at least the length, `more_effective` returns a number `r` with
`simple ≤ r ≤ simple + 1`, equal to `simple` whenever `max(a, b)` is not a stored value; and for
distinct bounds `pos_min ≤ length` holds where the lower-bound resolution ends, a return of the
upper-bound resolution gives `length - pos_min` unwrapped, and `pos_min ≤ pos_max` where its loop
exits. -/
theorem bounded_over_count (P : List Nat) (hsb : StepBounded P) (hlen : P.length < SIZE)
    (a b : Nat) (ha : a < SIZE) (hb : b < SIZE) (fuel : Nat) (hf : P.length ≤ fuel) :
    (∃ r, more_effective fuel (some P) a b = some r ∧ simple (some P) a b ≤ r ∧
      r ≤ simple (some P) a b + 1 ∧ (Nat.max a b ∉ P → r = simple (some P) a b)) ∧
    (a ≠ b → ∀ pos_min value f,
      lower_search (Nat.min a b) P fuel = some (Outcome.exited pos_min value f) →
        pos_min ≤ P.length ∧
        (∀ n, upper_search (Nat.max a b) P.length pos_min fuel value f =
            some (Outcome.returned n) → n = P.length - pos_min) ∧
        ∀ pos_max value2 f2, upper_search (Nat.max a b) P.length pos_min fuel value f =
            some (Outcome.exited pos_max value2 f2) → pos_min ≤ pos_max) := by
  have hmin : Nat.min a b < SIZE := Nat.lt_of_le_of_lt (Nat.min_le_left a b) ha
  have hmax : Nat.max a b < SIZE := by
    rcases Nat.le_total a b with h | h
    · rw [show Nat.max a b = b from Nat.max_eq_right h]; exact hb
    · rw [show Nat.max a b = a from Nat.max_eq_left h]; exact ha
  constructor
  · by_cases hab : a = b
    · subst hab
      have hs : simple (some P) a a = 0 := by
        rw [simple_eq_count]
        exact count_between_self P _ _ (by
          show max a a ≤ min a a
          simp)
      rw [hs]
      exact ⟨0, by simp [more_effective], Nat.le_refl _, by omega, fun _ => rfl⟩
    · obtain ⟨U, hU1, hU2, hU3, hU⟩ := more_effective_char_ne hsb hlen hmax
      have hlt : Nat.min a b < Nat.max a b := by
        show min a b < max a b
        omega
      have hadd := count_lt_eq_add P hlt
      have hone := hsb.count_le_le_succ (Nat.max a b)
      have hL := count_le_le_length P (Nat.min a b)
      have hM := List.countP_le_length (fun v => decide (v < Nat.max a b)) (l := P)
      rw [show List.countP (fun v => decide (v < Nat.max a b)) P = count_lt P (Nat.max a b)
        from rfl] at hM
      refine ⟨_, hU fuel a b hf hab rfl, ?_, ?_, ?_⟩
      · rw [simple_eq_count]
        split_ifs <;> omega
      · rw [simple_eq_count]
        split_ifs <;> omega
      · intro hnot
        have := hone.2 hnot
        rw [simple_eq_count]
        split_ifs <;> omega
  · intro hab pos_min value f hlow
    rw [lower_search_spec hsb hlen hmin fuel hf] at hlow
    have hlt : Nat.min a b < Nat.max a b := by
      show min a b < max a b
      omega
    have hLM := count_le_le_count_lt P hlt
    by_cases hL : count_le P (Nat.min a b) < P.length
    · rw [if_pos hL] at hlow
      simp only [Option.some.injEq, Outcome.exited.injEq] at hlow
      obtain ⟨rfl, rfl, rfl⟩ := hlow
      obtain ⟨U, hU1, hU2, hU3, hU⟩ := upper_search_spec hsb hlen hmax
      have hcU : count_lt P (Nat.max a b) ≤ U := by
        apply count_lt_le
        intro i hi1 hi2
        have := hU3 (by omega)
        have := hsb.mono hi1 hi2
        omega
      rw [hU fuel _ _ _ hf]
      refine ⟨Nat.le_of_lt hL, ?_, ?_⟩
      · intro n hn
        by_cases hUl : U < P.length
        · rw [if_pos hUl] at hn
          simp at hn
        · rw [if_neg hUl] at hn
          simp only [Option.some.injEq, Outcome.returned.injEq] at hn
          rw [← hn]
          exact usub_of_le (Nat.le_of_lt hL) hlen
      · intro pos_max value2 f2 hn
        by_cases hUl : U < P.length
        · rw [if_pos hUl] at hn
          simp only [Option.some.injEq, Outcome.exited.injEq] at hn
          obtain ⟨rfl, -, -⟩ := hn
          omega
        · rw [if_neg hUl] at hn
          simp at hn
    · rw [if_neg hL] at hlow
      simp at hlow

/-- Witness of C19: the test sequence with the bounds `(9, 12)` of `test()`. -/
theorem bounded_over_count_witness :
    StepBounded test_sequence ∧ test_sequence.length < SIZE ∧ 9 < SIZE ∧ 12 < SIZE ∧
    test_sequence.length ≤ 10 ∧
    ((∃ r, more_effective 10 (some test_sequence) 9 12 = some r ∧ simple (some test_sequence) 9 12 ≤ r ∧
      r ≤ simple (some test_sequence) 9 12 + 1 ∧ (Nat.max 9 12 ∉ test_sequence → r = simple (some test_sequence) 9 12)) ∧
    (9 ≠ 12 → ∀ pos_min value f,
      lower_search (Nat.min 9 12) test_sequence 10 = some (Outcome.exited pos_min value f) →
        pos_min ≤ test_sequence.length ∧
        (∀ n, upper_search (Nat.max 9 12) test_sequence.length pos_min 10 value f =
            some (Outcome.returned n) → n = test_sequence.length - pos_min) ∧
        ∀ pos_max value2 f2, upper_search (Nat.max 9 12) test_sequence.length pos_min 10 value f =
            some (Outcome.exited pos_max value2 f2) → pos_min ≤ pos_max)) :=
  ⟨by decide, by decide, by decide, by decide, by decide,
    bounded_over_count test_sequence (by decide) (by decide) 9 12 (by decide) (by decide) 10
      (by decide)⟩

/-- C17 (convergence of the jump): on a step-bounded file of at most `2^63` records, with bounds
in the range of `size_t`, a round of the lower loop that starts with the gap `d = min - value`
and after which the loop goes on leaves a gap `d' < d`, and `d' ≤ ceil(d / 2) - 1`, so
`2 * d' < d`, when `d > 2`; likewise for the upper loop with `max`; hence either loop, started
inside the file with the gap `d`, ends within `log2 (d + 1) + 3` rounds. -/
theorem jump_converges (P : List Nat) (hsb : StepBounded P) (hlen : 2 * P.length ≤ SIZE)
    (min max : Nat) (hmin : min < SIZE) (hmax : max < SIZE) :
    (∀ pos tmp, pos < P.length → P.getD pos 0 ≤ min →
      tmp = (if min - P.getD pos 0 > 2 then (min - P.getD pos 0) >>> 1 else 0) →
      pos + tmp + 1 ≤ P.length - 1 → P.getD (pos + tmp + 1) 0 ≤ min →
        (∀ fuel, lower_loop min P.length (fuel + 1) pos (P.getD pos 0) ⟨P, pos + 1⟩ =
          lower_loop min P.length fuel (pos + tmp + 1) (P.getD (pos + tmp + 1) 0)
            ⟨P, pos + tmp + 1 + 1⟩) ∧
        min - P.getD (pos + tmp + 1) 0 < min - P.getD pos 0 ∧
        (min - P.getD pos 0 > 2 →
          min - P.getD (pos + tmp + 1) 0 ≤ (min - P.getD pos 0 + 1) / 2 - 1 ∧
          2 * (min - P.getD (pos + tmp + 1) 0) < min - P.getD pos 0)) ∧
    (∀ pos_min pos tmp, pos < P.length → P.getD pos 0 < max →
      tmp = (if max - P.getD pos 0 > 2 then (max - P.getD pos 0) >>> 1 else 0) →
      pos + tmp + 1 ≤ P.length - 1 → P.getD (pos + tmp + 1) 0 < max →
        (∀ fuel, upper_loop max P.length pos_min (fuel + 1) pos (P.getD pos 0) ⟨P, pos + 1⟩ =
          upper_loop max P.length pos_min fuel (pos + tmp + 1) (P.getD (pos + tmp + 1) 0)
            ⟨P, pos + tmp + 1 + 1⟩) ∧
        max - P.getD (pos + tmp + 1) 0 < max - P.getD pos 0 ∧
        (max - P.getD pos 0 > 2 →
          max - P.getD (pos + tmp + 1) 0 ≤ (max - P.getD pos 0 + 1) / 2 - 1 ∧
          2 * (max - P.getD (pos + tmp + 1) 0) < max - P.getD pos 0)) ∧
    (∀ pos fuel, pos < P.length → Nat.log 2 (min - P.getD pos 0 + 1) + 3 ≤ fuel →
      ∃ r, lower_loop min P.length fuel pos (P.getD pos 0) ⟨P, pos + 1⟩ = some r) ∧
    (∀ pos_min pos fuel, pos < P.length → Nat.log 2 (max - P.getD pos 0 + 1) + 3 ≤ fuel →
      ∃ r, upper_loop max P.length pos_min fuel pos (P.getD pos 0) ⟨P, pos + 1⟩ = some r) := by
  refine ⟨?_, ?_, ?_, ?_⟩
  · intro pos tmp hpos hv htmp hin hv2
    have hj := hsb.after_jump hin
    refine ⟨((lower_loop_step P hlen hmin ⟨rfl, hpos, rfl⟩ hv tmp htmp).2 hin).2, by omega, ?_⟩
    intro hd
    rw [if_pos hd, shr_one] at htmp
    omega
  · intro pos_min pos tmp hpos hv htmp hin hv2
    have hj := hsb.after_jump hin
    refine ⟨((upper_loop_step P hlen hmax pos_min ⟨rfl, hpos, rfl⟩ hv tmp htmp).2 hin).2,
      by omega, ?_⟩
    intro hd
    rw [if_pos hd, shr_one] at htmp
    omega
  · intro pos fuel hpos hf
    have hb := read_bound_le_log (min - P.getD pos 0)
    by_cases hv : P.getD pos 0 ≤ min
    · exact lower_loop_log hsb hlen hmin _ pos hpos hv rfl fuel (by omega)
    · obtain ⟨fuel, rfl⟩ : ∃ n, fuel = n + 1 := ⟨fuel - 1, by omega⟩
      rw [lower_loop, if_neg hv]
      exact ⟨_, rfl⟩
  · intro pos_min pos fuel hpos hf
    have hb := read_bound_le_log (max - P.getD pos 0)
    by_cases hv : P.getD pos 0 < max
    · exact upper_loop_log hsb hlen hmax pos_min _ pos hpos hv rfl fuel (by omega)
    · obtain ⟨fuel, rfl⟩ : ∃ n, fuel = n + 1 := ⟨fuel - 1, by omega⟩
      rw [upper_loop, if_neg hv]
      exact ⟨_, rfl⟩

/-- Witness of C17: the test sequence with the bounds 9 and 12. -/
theorem jump_converges_witness :
    StepBounded test_sequence ∧ 2 * test_sequence.length ≤ SIZE ∧ 9 < SIZE ∧ 12 < SIZE ∧
    ((∀ pos tmp, pos < test_sequence.length → test_sequence.getD pos 0 ≤ 9 →
      tmp = (if 9 - test_sequence.getD pos 0 > 2 then (9 - test_sequence.getD pos 0) >>> 1 else 0) →
      pos + tmp + 1 ≤ test_sequence.length - 1 → test_sequence.getD (pos + tmp + 1) 0 ≤ 9 →
        (∀ fuel, lower_loop 9 test_sequence.length (fuel + 1) pos (test_sequence.getD pos 0) ⟨test_sequence, pos + 1⟩ =
          lower_loop 9 test_sequence.length fuel (pos + tmp + 1) (test_sequence.getD (pos + tmp + 1) 0)
            ⟨test_sequence, pos + tmp + 1 + 1⟩) ∧
        9 - test_sequence.getD (pos + tmp + 1) 0 < 9 - test_sequence.getD pos 0 ∧
        (9 - test_sequence.getD pos 0 > 2 →
          9 - test_sequence.getD (pos + tmp + 1) 0 ≤ (9 - test_sequence.getD pos 0 + 1) / 2 - 1 ∧
          2 * (9 - test_sequence.getD (pos + tmp + 1) 0) < 9 - test_sequence.getD pos 0)) ∧
    (∀ pos_min pos tmp, pos < test_sequence.length → test_sequence.getD pos 0 < 12 →
      tmp = (if 12 - test_sequence.getD pos 0 > 2 then (12 - test_sequence.getD pos 0) >>> 1 else 0) →
      pos + tmp + 1 ≤ test_sequence.length - 1 → test_sequence.getD (pos + tmp + 1) 0 < 12 →
        (∀ fuel, upper_loop 12 test_sequence.length pos_min (fuel + 1) pos (test_sequence.getD pos 0) ⟨test_sequence, pos + 1⟩ =
          upper_loop 12 test_sequence.length pos_min fuel (pos + tmp + 1) (test_sequence.getD (pos + tmp + 1) 0)
            ⟨test_sequence, pos + tmp + 1 + 1⟩) ∧
        12 - test_sequence.getD (pos + tmp + 1) 0 < 12 - test_sequence.getD pos 0 ∧
        (12 - test_sequence.getD pos 0 > 2 →
          12 - test_sequence.getD (pos + tmp + 1) 0 ≤ (12 - test_sequence.getD pos 0 + 1) / 2 - 1 ∧
          2 * (12 - test_sequence.getD (pos + tmp + 1) 0) < 12 - test_sequence.getD pos 0)) ∧
    (∀ pos fuel, pos < test_sequence.length → Nat.log 2 (9 - test_sequence.getD pos 0 + 1) + 3 ≤ fuel →
      ∃ r, lower_loop 9 test_sequence.length fuel pos (test_sequence.getD pos 0) ⟨test_sequence, pos + 1⟩ = some r) ∧
    (∀ pos_min pos fuel, pos < test_sequence.length → Nat.log 2 (12 - test_sequence.getD pos 0 + 1) + 3 ≤ fuel →
      ∃ r, upper_loop 12 test_sequence.length pos_min fuel pos (test_sequence.getD pos 0) ⟨test_sequence, pos + 1⟩ = some r)) :=
  ⟨by decide, by decide, by decide, by decide,
    jump_converges test_sequence (by decide) (by decide) 9 12 (by decide) (by decide)⟩

end CppTask
